import Mathlib

/-!
Verification of the `HeightMap` position-index engine from
`src/vs/base/parts/tree/browser/treeViewModel.ts`.

The TypeScript class keeps an ordered array `heightMap : IViewItem[]`
(each element carrying a model item, a `top` offset and a `height`) and a
JS object `indexes : { [item: string]: number }` mapping model-item
identities to slots.  We embed the class shallowly: the array becomes a
`List ViewItem`, the JS object becomes an association list
`List (String × Nat)` (lookup plus keyed insert/delete mirror JS property
semantics), JS numbers that hold heights/offsets become `Int`, and the
observer hooks (`emit 'viewItem:create'`, `onInsertItem`, `onRemoveItem`,
`onRefreshItem`) become an explicit notification trace.  Operations that
can fail (a missing identity: the TS code either logs and returns
`undefined`, or dereferences `undefined` and throws) return `Option`.
-/

/-- A model item as consumed by the height map: a stable identity
(`item.id`) and its current height (`item.getHeight()`). -/
structure Item where
  id : String
  getHeight : Int
deriving DecidableEq, Repr

/-- `IViewItem`: `{ model: Item; top: number; height: number }`. -/
structure ViewItem where
  model : Item
  top : Int
  height : Int
deriving DecidableEq, Repr

/-- The `HeightMap` state: the ordered row array and the identity index. -/
structure HeightMap where
  heightMap : List ViewItem
  indexes : List (String × Nat)
deriving DecidableEq, Repr

/-- The constructor state: `this.heightMap = []; this.indexes = {}`. -/
def HeightMap.empty : HeightMap := ⟨[], []⟩

/-- One observer notification.  `create` is the `'viewItem:create'` emit,
`insertHook`/`removeHook`/`refreshed` are the `onInsertItem` /
`onRemoveItem` / `onRefreshItem(item, needsRender)` template-method
calls. -/
inductive Notif where
  | create (id : String)
  | insertHook (id : String)
  | removeHook (id : String)
  | refreshed (id : String) (needsRender : Bool)
deriving DecidableEq, Repr

/-- JS `obj[k] = v` on the index object: overwrite if present, else add. -/
def setIdx (idx : List (String × Nat)) (k : String) (v : Nat) : List (String × Nat) :=
  if (List.lookup k idx).isSome then
    idx.map (fun p => if p.1 = k then (k, v) else p)
  else idx ++ [(k, v)]

/-- JS `delete obj[k]` on the index object. -/
def delIdx (idx : List (String × Nat)) (k : String) : List (String × Nat) :=
  idx.filter (fun p => p.1 ≠ k)

/-- `getTotalHeight()`: last row's `top + height`, or 0 when empty. -/
def HeightMap.getTotalHeight (hm : HeightMap) : Int :=
  match hm.heightMap.getLast? with
  | none => 0
  | some last => last.top + last.height

/-- `itemsCount()`. -/
def HeightMap.itemsCount (hm : HeightMap) : Nat := hm.heightMap.length

/-- Modelled from the spec: `createViewItem` is abstract in this class
(`throw new Error('not implemented')`); per the spec's data model the
subclass produces a row whose extent is the model item's height ("extent:
this row's own height").  Its `top` is immediately overwritten by the
insert scan, so we set it there. -/
def createViewItem (item : Item) : ViewItem :=
  ⟨item, 0, item.getHeight⟩

/-- The `while (item = iterator.next())` scan of `onInsertItems`
(lines 59–67): builds the rows to insert (each with
`top = totalSize + sizeDiff` at its turn), writes `indexes[item.id] = i++`,
accumulates `sizeDiff`, and emits `'viewItem:create'` per item in input
order.  Returns (rows to insert, final sizeDiff, updated index, trace). -/
def insertScan (items : List Item) (i : Nat) (totalSize : Int) (sizeDiff : Int)
    (idx : List (String × Nat)) : List ViewItem × Int × List (String × Nat) × List Notif :=
  match items with
  | [] => ([], sizeDiff, idx, [])
  | it :: rest =>
    let vi : ViewItem := { createViewItem it with top := totalSize + sizeDiff }
    let r := insertScan rest (i + 1) totalSize (sizeDiff + vi.height) (setIdx idx it.id i)
    (vi :: r.1, r.2.1, r.2.2.1, Notif.create it.id :: r.2.2.2)

/-- The suffix loop shared by insert (lines 71–75) and remove
(lines 124–127): starting at slot `j`, add `d` to each row's `top` and
re-write `indexes[row.model.id] = j`.  Returns the shifted rows and the
updated index. -/
def shiftReindex (rows : List ViewItem) (j : Nat) (d : Int)
    (idx : List (String × Nat)) : List ViewItem × List (String × Nat) :=
  match rows with
  | [] => ([], idx)
  | r :: rest =>
    let r' := { r with top := r.top + d }
    let t := shiftReindex rest (j + 1) d (setIdx idx r.model.id j)
    (r' :: t.1, t.2)

/-- Resolution of `afterItemId` at the top of `onInsertItems`
(lines 40–53): `none` ⇒ insert at slot 0 with base offset 0; otherwise
`i = indexes[afterItemId] + 1` and the base is that row's `top + height`,
failing (log + `return undefined`) when the identity is unknown or its
slot has no row. -/
def insertStart (hm : HeightMap) (afterItemId : Option String) : Option (Nat × Int) :=
  match afterItemId with
  | none => some (0, 0)
  | some aid =>
    match List.lookup aid hm.indexes with
    | none => none
    | some k =>
      match hm.heightMap.get? k with
      | none => none
      | some vi => some (k + 1, vi.top + vi.height)

/-- `onInsertItems(iterator, afterItemId)`: returns `none` on the
`ItemNotFound` error path (JS logs and returns `undefined`, having mutated
nothing), else the new state, the returned `sizeDiff`, and the
notification trace: creates in input order during the scan, then
`onInsertItem` per inserted row in reverse input order (lines 77–79), then
`onRefreshItem` per shifted pre-existing row from the end of the array
down to the insertion point (lines 81–83). -/
def HeightMap.onInsertItems (hm : HeightMap) (items : List Item)
    (afterItemId : Option String) : Option (HeightMap × Int × List Notif) :=
  match insertStart hm afterItemId with
  | none => none
  | some (i0, totalSize) =>
    let s := insertScan items i0 totalSize 0 hm.indexes
    let newRows := s.1
    let sizeDiff := s.2.1
    let pre := hm.heightMap.take i0
    let suf := hm.heightMap.drop i0
    let t := shiftReindex suf (i0 + items.length) sizeDiff s.2.2.1
    let rows' := pre ++ newRows ++ t.1
    some (⟨rows', t.2⟩, sizeDiff,
      s.2.2.2
      ++ (newRows.reverse.map fun v => Notif.insertHook v.model.id)
      ++ (t.1.reverse.map fun v => Notif.refreshed v.model.id false))

/-- Result of the `while (itemId = iterator.next())` scan of
`onRemoveItems` (lines 100–116).  `ok = false` records the abort on a
missing identity (JS logs and returns, keeping the index mutations made so
far).  `lastI` is the loop variable `i` after the loop; `startIndex` is
the first slot seen. -/
structure RemoveScan where
  ok : Bool
  indexes : List (String × Nat)
  sizeDiff : Int
  startIndex : Option Nat
  lastI : Nat
  trace : List Notif
deriving Repr

/-- The remove scan.  Note the JS loop condition `itemId = iterator.next()`
is falsy for the empty string, so an identity `""` ends the scan like the
end of the input. -/
def removeScan (ids : List String) (rows : List ViewItem)
    (idx : List (String × Nat)) (sizeDiff : Int) (startIndex : Option Nat)
    (lastI : Nat) : RemoveScan :=
  match ids with
  | [] => ⟨true, idx, sizeDiff, startIndex, lastI, []⟩
  | id :: rest =>
    if id = "" then ⟨true, idx, sizeDiff, startIndex, lastI, []⟩
    else
      match List.lookup id idx with
      | none => ⟨false, idx, sizeDiff, startIndex, lastI, []⟩
      | some i =>
        match rows.get? i with
        | none => ⟨false, idx, sizeDiff, startIndex, lastI, []⟩
        | some vi =>
          let r := removeScan rest rows (delIdx idx id) (sizeDiff - vi.height)
            (some (startIndex.getD i)) i
          { r with trace := Notif.removeHook id :: r.trace }

/-- `onRemoveItems(iterator)`: scan; on abort or when `sizeDiff === 0`
return with the array untouched (but the index mutations kept); otherwise
splice out `[startIndex, i]` (JS `splice` clamps a negative delete count
to 0) and shift/reindex/notify the remaining suffix in ascending slot
order (lines 118–129). -/
def HeightMap.onRemoveItems (hm : HeightMap) (ids : List String) :
    HeightMap × List Notif :=
  let r := removeScan ids hm.heightMap hm.indexes 0 none 0
  if r.ok = false then (⟨hm.heightMap, r.indexes⟩, r.trace)
  else if r.sizeDiff = 0 then (⟨hm.heightMap, r.indexes⟩, r.trace)
  else
    match r.startIndex with
    | none => (⟨hm.heightMap, r.indexes⟩, r.trace)  -- unreachable: sizeDiff ≠ 0 forces a first slot
    | some s =>
      let delCnt : Nat := (Int.ofNat r.lastI - Int.ofNat s + 1).toNat
      let rows1 := hm.heightMap.take s ++ hm.heightMap.drop (s + delCnt)
      let t := shiftReindex (rows1.drop s) s r.sizeDiff r.indexes
      (⟨rows1.take s ++ t.1, t.2⟩,
        r.trace ++ t.1.map fun v => Notif.refreshed v.model.id false)

/-- The catch-up/update shift of a slot segment `[a, b)` by `d` used in
`onRefreshItems`' inner `for` loop. -/
def shiftSeg (rows : List ViewItem) (a b : Nat) (d : Int) : List ViewItem :=
  rows.take a
    ++ (((rows.drop a).take (b - a)).map fun v => { v with top := v.top + d })
    ++ rows.drop (max a b)

/-- The `while (item = iterator.next())` loop of `onRefreshItems`
(lines 149–166): per item, catch up rows `[j, i)` by `cummDiff` (the JS
`for` loop runs only when `cummDiff !== 0 && j !== null && j < i`), then
update row `i` (`top += cummDiff`, new height, `onRefreshItem(·, true)`),
and set `j = i + 1`.  A missing identity or slot makes the JS code
dereference `undefined` and throw: modelled as `none`. -/
def refreshLoop (items : List Item) (rows : List ViewItem)
    (idx : List (String × Nat)) (j : Option Nat) (cummDiff : Int) :
    Option (List ViewItem × Option Nat × Int × List Notif) :=
  match items with
  | [] => some (rows, j, cummDiff, [])
  | it :: rest =>
    match List.lookup it.id idx with
    | none => none
    | some i =>
      let doCatch : Bool := cummDiff != 0 &&
        (match j with | some j0 => decide (j0 < i) | none => false)
      let j0 := j.getD 0
      let rows1 := if doCatch then shiftSeg rows j0 i cummDiff else rows
      let catchTr : List Notif :=
        if doCatch then
          ((rows.drop j0).take (i - j0)).map fun v => Notif.refreshed v.model.id false
        else []
      match rows1.get? i with
      | none => none
      | some vi =>
        let newHeight := it.getHeight
        let vi' : ViewItem := { vi with top := vi.top + cummDiff, height := newHeight }
        match refreshLoop rest (rows1.set i vi') idx (some (i + 1))
            (cummDiff + (newHeight - vi.height)) with
        | none => none
        | some r =>
          some (r.1, r.2.1, r.2.2.1,
            catchTr ++ (Notif.refreshed vi'.model.id true :: r.2.2.2))

/-- `onRefreshItems(iterator)`: run the loop from `j = null`,
`cummDiff = 0`; afterwards, if `cummDiff !== 0 && j !== null`, shift every
row from `j` to the end by `cummDiff`, notifying each (lines 168–174).
The index object is never touched by a refresh. -/
def HeightMap.onRefreshItems (hm : HeightMap) (items : List Item) :
    Option (HeightMap × List Notif) :=
  match refreshLoop items hm.heightMap hm.indexes none 0 with
  | none => none
  | some (rows, j, cummDiff, tr) =>
    if cummDiff ≠ 0 then
      match j with
      | some j0 =>
        let shifted := (rows.drop j0).map fun v => { v with top := v.top + cummDiff }
        some (⟨rows.take j0 ++ shifted, hm.indexes⟩,
          tr ++ shifted.map fun v => Notif.refreshed v.model.id false)
      | none => some (⟨rows, hm.indexes⟩, tr)
    else some (⟨rows, hm.indexes⟩, tr)

/-- The binary-search loop of `indexAt` (lines 204–218), recursing on the
shrinking window `[left, right)`.  `n` is `this.heightMap.length`, the
value returned when the loop exits or breaks.  The `rows.get? center =
none` branch is unreachable while `right ≤ rows.length` (JS would throw
there). -/
def indexAtGo (rows : List ViewItem) (n : Nat) (position : Int)
    (left right : Nat) : Nat :=
  if h : left < right then
    match rows.get? ((left + right) / 2) with
    | none => n
    | some item =>
      if position < item.top then
        indexAtGo rows n position left ((left + right) / 2)
      else if position ≥ item.top + item.height then
        if hlc : left = (left + right) / 2 then n
        else indexAtGo rows n position ((left + right) / 2) right
      else (left + right) / 2
  else n
termination_by right - left
decreasing_by
all_goals simp_wf
· omega
· omega

/-- `indexAt(position)`. -/
def HeightMap.indexAt (hm : HeightMap) (position : Int) : Nat :=
  indexAtGo hm.heightMap hm.heightMap.length position 0 hm.heightMap.length

/-- `indexAfter(position) = Math.min(indexAt(position) + 1, length)`. -/
def HeightMap.indexAfter (hm : HeightMap) (position : Int) : Nat :=
  min (hm.indexAt position + 1) hm.heightMap.length

/-- `itemAt(position) = heightMap[indexAt(position)].model.id`; the access
is unguarded, so when the slot is the past-end sentinel the JS code
dereferences `undefined` and throws — modelled as `none`. -/
def HeightMap.itemAt (hm : HeightMap) (position : Int) : Option String :=
  (hm.heightMap.get? (hm.indexAt position)).map fun v => v.model.id

/-! ## Invariants and operation sequences -/

/-- The identities of the rows, in slot order. -/
def idsOf (rows : List ViewItem) : List String := rows.map fun v => v.model.id

/-- Sum of the rows' heights. -/
def heightSum : List ViewItem → Int
  | [] => 0
  | v :: rest => v.height + heightSum rest

/-- Sum of the model items' heights. -/
def itemHeightSum : List Item → Int
  | [] => 0
  | it :: rest => it.getHeight + itemHeightSum rest

/-- Contiguity from a base offset: the first row sits at `base` and each
row starts where the previous one ends. -/
def contigB (base : Int) : List ViewItem → Bool
  | [] => true
  | v :: rest => (v.top == base) && contigB (v.top + v.height) rest

/-- Invariant I1: the rows partition the axis contiguously from offset 0
(`offset[k+1] = offset[k] + extent[k]`, first offset 0). -/
def I1B (hm : HeightMap) : Bool := contigB 0 hm.heightMap

/-- Every row's identity is indexed at its actual slot. -/
def slotsOK (rows : List ViewItem) (idx : List (String × Nat)) : Bool :=
  (List.range rows.length).all fun k =>
    match rows.get? k with
    | some v => List.lookup v.model.id idx == some k
    | none => false

/-- Every index entry's key is the identity of a present row: no stale
entries. -/
def entriesOK (rows : List ViewItem) (idx : List (String × Nat)) : Bool :=
  idx.all fun p => (idsOf rows).contains p.1

/-- Invariant I2: the index maps each present identity to its slot and
contains no stale entries. -/
def I2B (hm : HeightMap) : Bool :=
  slotsOK hm.heightMap hm.indexes && entriesOK hm.heightMap hm.indexes

/-- The row identities are pairwise distinct. -/
def nodupIdsB (hm : HeightMap) : Bool := decide (idsOf hm.heightMap).Nodup

/-- One mutation of the height map. -/
inductive Op where
  | insert (items : List Item) (afterItemId : Option String)
  | remove (ids : List String)
  | refresh (items : List Item)

/-- The state after an operation.  An insert that fails its anchor lookup
mutates nothing (JS returns `undefined`).  A refresh of an unknown
identity throws in JS; valid sequences below never reach that branch. -/
def applyOp (hm : HeightMap) : Op → HeightMap
  | .insert items aft =>
    match hm.onInsertItems items aft with
    | some r => r.1
    | none => hm
  | .remove ids => (hm.onRemoveItems ids).1
  | .refresh items =>
    match hm.onRefreshItems items with
    | some r => r.1
    | none => hm

/-- Run a sequence of operations. -/
def runOps (hm : HeightMap) (ops : List Op) : HeightMap := ops.foldl applyOp hm

/-- The remove precondition ("contiguous run"): each identity (nonempty,
looked up in the progressively-deleted index) resolves to the next slot of
an ascending contiguous in-bounds run starting at `s`. -/
def removeRunB (rows : List ViewItem) : List String → List (String × Nat) → Nat → Bool
  | [], _, _ => true
  | id :: rest, idx, s =>
    !(id == "") && (List.lookup id idx == some s) && decide (s < rows.length) &&
      removeRunB rows rest (delIdx idx id) (s + 1)

/-- A valid remove input: empty, or a contiguous present run. -/
def validRemoveB (hm : HeightMap) (ids : List String) : Bool :=
  match ids with
  | [] => true
  | id :: _ =>
    match List.lookup id hm.indexes with
    | none => false
    | some s => removeRunB hm.heightMap ids hm.indexes s

/-- The refresh precondition: items present, at strictly ascending
in-bounds slots (`lo` is one past the previous slot). -/
def ascRunB (idx : List (String × Nat)) (n : Nat) : List Item → Nat → Bool
  | [], _ => true
  | it :: rest, lo =>
    match List.lookup it.id idx with
    | none => false
    | some i => decide (lo ≤ i) && decide (i < n) && ascRunB idx n rest (i + 1)

/-- Validity of one operation as quantified by the contiguity claim:
insert with anchor none or present, remove of a present contiguous run,
refresh of present items in ascending slot order. -/
def validOpB (hm : HeightMap) : Op → Bool
  | .insert _ aft =>
    match aft with
    | none => true
    | some a => (List.lookup a hm.indexes).isSome
  | .remove ids => validRemoveB hm ids
  | .refresh items => ascRunB hm.indexes hm.heightMap.length items 0

/-- Validity of a whole operation sequence, step by step. -/
def validSeqB (hm : HeightMap) : List Op → Bool
  | [] => true
  | op :: ops => validOpB hm op && validSeqB (applyOp hm op) ops

/-- The inserted items of a valid insert: pairwise-distinct identities not
already indexed. -/
def freshItemsB (hm : HeightMap) (items : List Item) : Bool :=
  decide (items.map (fun it => it.id)).Nodup &&
    items.all fun it => (List.lookup it.id hm.indexes).isNone

/-- The stronger per-operation validity under which index consistency is
preserved: inserts are fresh, and a remove is empty or removes nonzero
total extent (the scan's `sizeDiff`). -/
def validOp2B (hm : HeightMap) : Op → Bool
  | .insert items aft =>
    freshItemsB hm items &&
      (match aft with
       | none => true
       | some a => (List.lookup a hm.indexes).isSome)
  | .remove ids =>
    validRemoveB hm ids &&
      (ids.isEmpty || !((removeScan ids hm.heightMap hm.indexes 0 none 0).sizeDiff == 0))
  | .refresh items => ascRunB hm.indexes hm.heightMap.length items 0

/-- Validity of a sequence under `validOp2B`. -/
def validSeq2B (hm : HeightMap) : List Op → Bool
  | [] => true
  | op :: ops => validOp2B hm op && validSeq2B (applyOp hm op) ops

/-! ## Lemmas about the identity index -/

theorem lookup_overwrite_self (idx : List (String × Nat)) (k : String) (v : Nat)
    (h : (List.lookup k idx).isSome = true) :
    List.lookup k (idx.map fun p => if p.1 = k then (k, v) else p) = some v := by
  induction idx with
  | nil => simp [List.lookup] at h
  | cons p rest ih =>
    obtain ⟨a, b⟩ := p
    by_cases hk : a = k
    · subst hk
      simp [List.lookup_cons]
    · have hne : (k == a) = false := by
        simp only [beq_eq_false_iff_ne]
        exact fun e => hk e.symm
      have h' : (List.lookup k rest).isSome = true := by
        simpa [List.lookup_cons, hne] using h
      simpa [List.lookup_cons, hk, hne] using ih h'

theorem lookup_overwrite_ne (idx : List (String × Nat)) (k k' : String) (v : Nat)
    (h : k' ≠ k) :
    List.lookup k' (idx.map fun p => if p.1 = k then (k, v) else p) =
      List.lookup k' idx := by
  induction idx with
  | nil => simp
  | cons p rest ih =>
    obtain ⟨a, b⟩ := p
    by_cases hk : a = k
    · subst hk
      have hne : (k' == a) = false := by
        simp only [beq_eq_false_iff_ne]; exact h
      simp [List.lookup_cons, hne, ih]
    · simp only [List.map_cons, if_neg hk]
      rw [List.lookup_cons, List.lookup_cons]
      cases hb : (k' == a) with
      | true => rfl
      | false => simpa using ih

theorem lookup_append_single_self (idx : List (String × Nat)) (k : String) (v : Nat)
    (h : List.lookup k idx = none) :
    List.lookup k (idx ++ [(k, v)]) = some v := by
  induction idx with
  | nil => simp [List.lookup_cons]
  | cons p rest ih =>
    obtain ⟨a, b⟩ := p
    rw [List.cons_append, List.lookup_cons]
    rw [List.lookup_cons] at h
    cases hb : (k == a) with
    | true => rw [hb] at h; simp at h
    | false => rw [hb] at h; simpa using ih h

theorem lookup_append_single_ne (idx : List (String × Nat)) (k k' : String) (v : Nat)
    (h : k' ≠ k) :
    List.lookup k' (idx ++ [(k, v)]) = List.lookup k' idx := by
  induction idx with
  | nil =>
    have hne : (k' == k) = false := by
      simp only [beq_eq_false_iff_ne]; exact h
    simp [List.lookup_cons, hne]
  | cons p rest ih =>
    obtain ⟨a, b⟩ := p
    rw [List.cons_append, List.lookup_cons, List.lookup_cons]
    cases hb : (k' == a) with
    | true => rfl
    | false => simpa using ih

theorem lookup_setIdx_self (idx : List (String × Nat)) (k : String) (v : Nat) :
    List.lookup k (setIdx idx k v) = some v := by
  unfold setIdx
  by_cases h : (List.lookup k idx).isSome
  · rw [if_pos h]
    exact lookup_overwrite_self idx k v h
  · rw [if_neg h]
    exact lookup_append_single_self idx k v (by
      cases hl : List.lookup k idx with
      | none => rfl
      | some w => rw [hl] at h; simp at h)

theorem lookup_setIdx_ne (idx : List (String × Nat)) (k k' : String) (v : Nat)
    (h : k' ≠ k) :
    List.lookup k' (setIdx idx k v) = List.lookup k' idx := by
  unfold setIdx
  split
  · exact lookup_overwrite_ne idx k k' v h
  · exact lookup_append_single_ne idx k k' v h

theorem lookup_delIdx_self (idx : List (String × Nat)) (k : String) :
    List.lookup k (delIdx idx k) = none := by
  unfold delIdx
  induction idx with
  | nil => simp
  | cons p rest ih =>
    obtain ⟨a, b⟩ := p
    rw [List.filter_cons]
    by_cases hk : a = k
    · subst hk
      simpa using ih
    · have hne : (k == a) = false := by
        simp only [beq_eq_false_iff_ne]
        exact fun e => hk e.symm
      rw [if_pos (by simpa using hk)]
      rw [List.lookup_cons, hne]
      simpa using ih

theorem lookup_delIdx_ne (idx : List (String × Nat)) (k k' : String) (h : k' ≠ k) :
    List.lookup k' (delIdx idx k) = List.lookup k' idx := by
  unfold delIdx
  induction idx with
  | nil => simp
  | cons p rest ih =>
    obtain ⟨a, b⟩ := p
    rw [List.filter_cons]
    by_cases hk : a = k
    · subst hk
      have hne : (k' == a) = false := by
        simp only [beq_eq_false_iff_ne]; exact h
      rw [if_neg (by simp)]
      rw [List.lookup_cons, hne]
      simpa using ih
    · rw [if_pos (by simpa using hk)]
      rw [List.lookup_cons, List.lookup_cons]
      cases hb : (k' == a) with
      | true => rfl
      | false => simpa using ih

/-! ## Contiguity lemmas -/

theorem heightSum_append (l1 l2 : List ViewItem) :
    heightSum (l1 ++ l2) = heightSum l1 + heightSum l2 := by
  induction l1 with
  | nil => simp [heightSum]
  | cons v rest ih => simp [heightSum, ih]; ring

theorem heightSum_map_shift (l : List ViewItem) (d : Int) :
    heightSum (l.map fun v => { v with top := v.top + d }) = heightSum l := by
  induction l with
  | nil => rfl
  | cons v rest ih => simp [heightSum, ih]

theorem contigB_append (b : Int) (l1 l2 : List ViewItem) :
    contigB b (l1 ++ l2) = true ↔
      contigB b l1 = true ∧ contigB (b + heightSum l1) l2 = true := by
  induction l1 generalizing b with
  | nil => simp [contigB, heightSum]
  | cons v rest ih =>
    simp only [List.cons_append, contigB, Bool.and_eq_true, beq_iff_eq, heightSum]
    constructor
    · rintro ⟨htop, hrest⟩
      have := (ih (v.top + v.height)).mp hrest
      subst htop
      exact ⟨⟨rfl, this.1⟩, by
        have := this.2
        convert this using 2
        ring⟩
    · rintro ⟨⟨htop, hl1⟩, hl2⟩
      subst htop
      refine ⟨rfl, (ih (v.top + v.height)).mpr ⟨hl1, ?_⟩⟩
      convert hl2 using 2
      ring

theorem contigB_map_shift (b d : Int) (l : List ViewItem)
    (h : contigB b l = true) :
    contigB (b + d) (l.map fun v => { v with top := v.top + d }) = true := by
  induction l generalizing b with
  | nil => rfl
  | cons v rest ih =>
    simp only [contigB, Bool.and_eq_true, beq_iff_eq] at h
    obtain ⟨htop, hrest⟩ := h
    subst htop
    simp only [List.map_cons, contigB, Bool.and_eq_true, beq_iff_eq]
    refine ⟨trivial, ?_⟩
    have := ih (v.top + v.height) hrest
    convert this using 2
    ring

theorem contigB_get_top (b : Int) (l : List ViewItem) (k : Nat) (v : ViewItem)
    (hc : contigB b l = true) (hg : l.get? k = some v) :
    v.top = b + heightSum (l.take k) := by
  induction l generalizing b k with
  | nil => simp at hg
  | cons w rest ih =>
    simp only [contigB, Bool.and_eq_true, beq_iff_eq] at hc
    obtain ⟨htop, hrest⟩ := hc
    cases k with
    | zero =>
      simp only [List.get?] at hg
      cases hg
      simpa [heightSum] using htop
    | succ k' =>
      simp only [List.get?] at hg
      have := ih (w.top + w.height) k' hrest hg
      simp only [List.take, heightSum]
      rw [this, htop]
      ring

theorem contigB_get_top_add_height (b : Int) (l : List ViewItem) (k : Nat)
    (v : ViewItem) (hc : contigB b l = true) (hg : l.get? k = some v) :
    v.top + v.height = b + heightSum (l.take (k + 1)) := by
  have hk : k < l.length := by
    rcases List.get?_eq_some.mp hg with ⟨h, _⟩
    exact h
  have hdecomp : l.take (k + 1) = l.take k ++ [v] := by
    rw [List.take_succ]
    rw [List.get?_eq_getElem?] at hg
    rw [hg]
    rfl
  rw [hdecomp, heightSum_append, contigB_get_top b l k v hc hg]
  simp [heightSum]
  ring

/-! ## Characterization of the insert scan and the shift/reindex loop -/

theorem insertScan_rows_contig (items : List Item) (i : Nat) (b sd : Int)
    (idx : List (String × Nat)) :
    contigB (b + sd) (insertScan items i b sd idx).1 = true := by
  induction items generalizing i sd idx with
  | nil => rfl
  | cons it rest ih =>
    simp only [insertScan, contigB, Bool.and_eq_true, beq_iff_eq]
    refine ⟨trivial, ?_⟩
    have := ih (i + 1) (sd + (createViewItem it).height) (setIdx idx it.id i)
    convert this using 2
    simp [createViewItem]
    ring

theorem insertScan_sizeDiff (items : List Item) (i : Nat) (b sd : Int)
    (idx : List (String × Nat)) :
    (insertScan items i b sd idx).2.1 = sd + itemHeightSum items := by
  induction items generalizing i sd idx with
  | nil => simp [insertScan, itemHeightSum]
  | cons it rest ih =>
    simp only [insertScan, itemHeightSum]
    rw [ih]
    simp [createViewItem]
    ring

theorem insertScan_heightSum (items : List Item) (i : Nat) (b sd : Int)
    (idx : List (String × Nat)) :
    heightSum (insertScan items i b sd idx).1 = itemHeightSum items := by
  induction items generalizing i sd idx with
  | nil => rfl
  | cons it rest ih =>
    simp only [insertScan, heightSum, itemHeightSum]
    rw [ih]
    simp [createViewItem]

theorem insertScan_length (items : List Item) (i : Nat) (b sd : Int)
    (idx : List (String × Nat)) :
    (insertScan items i b sd idx).1.length = items.length := by
  induction items generalizing i sd idx with
  | nil => rfl
  | cons it rest ih => simp [insertScan, ih]

theorem insertScan_models (items : List Item) (i : Nat) (b sd : Int)
    (idx : List (String × Nat)) :
    (insertScan items i b sd idx).1.map (fun v => v.model) = items := by
  induction items generalizing i sd idx with
  | nil => rfl
  | cons it rest ih => simp [insertScan, ih, createViewItem]

theorem insertScan_trace (items : List Item) (i : Nat) (b sd : Int)
    (idx : List (String × Nat)) :
    (insertScan items i b sd idx).2.2.2 = items.map fun it => Notif.create it.id := by
  induction items generalizing i sd idx with
  | nil => rfl
  | cons it rest ih => simp [insertScan, ih]

theorem shiftReindex_rows (rows : List ViewItem) (j : Nat) (d : Int)
    (idx : List (String × Nat)) :
    (shiftReindex rows j d idx).1 = rows.map fun v => { v with top := v.top + d } := by
  induction rows generalizing j idx with
  | nil => rfl
  | cons r rest ih => simp [shiftReindex, ih]

/-- Where an insert lands: the anchor resolves to an in-bounds slot whose
base offset is the total extent of the rows before it. -/
theorem insertStart_base (hm : HeightMap) (aft : Option String) (i0 : Nat) (b : Int)
    (h1 : I1B hm = true) (h : insertStart hm aft = some (i0, b)) :
    i0 ≤ hm.heightMap.length ∧ b = heightSum (hm.heightMap.take i0) := by
  cases aft with
  | none =>
    simp only [insertStart, Option.some.injEq, Prod.mk.injEq] at h
    obtain ⟨h0, hb⟩ := h
    subst h0; subst hb
    simp [heightSum]
  | some a =>
    simp only [insertStart] at h
    split at h
    · exact absurd h (by simp)
    · split at h
      · exact absurd h (by simp)
      · rename_i o1 k hl o2 vi hg
        simp only [Option.some.injEq, Prod.mk.injEq] at h
        obtain ⟨h0, hb⟩ := h
        subst h0; subst hb
        have hk : k < hm.heightMap.length := by
          rcases List.get?_eq_some.mp hg with ⟨hlt, _⟩
          exact hlt
        refine ⟨hk, ?_⟩
        have := contigB_get_top_add_height 0 hm.heightMap k vi h1 hg
        simpa using this

/-- A successful insert preserves contiguity. -/
theorem I1B_insert (hm : HeightMap) (items : List Item) (aft : Option String)
    (hm' : HeightMap) (sd : Int) (tr : List Notif)
    (h1 : I1B hm = true)
    (hres : hm.onInsertItems items aft = some (hm', sd, tr)) :
    I1B hm' = true := by
  unfold HeightMap.onInsertItems at hres
  cases hstart : insertStart hm aft with
  | none => rw [hstart] at hres; exact absurd hres (by simp)
  | some ib =>
    obtain ⟨i0, b⟩ := ib
    rw [hstart] at hres
    simp only [Option.some.injEq, Prod.mk.injEq] at hres
    obtain ⟨hhm, _, _⟩ := hres
    obtain ⟨hle, hb⟩ := insertStart_base hm aft i0 b h1 hstart
    subst hhm
    subst hb
    unfold I1B
    simp only [shiftReindex_rows]
    have hsplit := (contigB_append 0 (hm.heightMap.take i0) (hm.heightMap.drop i0)).mp
      (by rw [List.take_append_drop]; exact h1)
    rw [List.append_assoc, contigB_append]
    refine ⟨hsplit.1, ?_⟩
    rw [contigB_append]
    constructor
    · have := insertScan_rows_contig items i0 (heightSum (hm.heightMap.take i0)) 0 hm.indexes
      simpa using this
    · rw [insertScan_heightSum, insertScan_sizeDiff]
      have := contigB_map_shift (0 + heightSum (hm.heightMap.take i0))
        (0 + itemHeightSum items) (hm.heightMap.drop i0) hsplit.2
      convert this using 2
      ring

/-! ## Characterization of the remove scan -/

/-- Delete a batch of keys from the index, in order. -/
def delAll (idx : List (String × Nat)) (ids : List String) : List (String × Nat) :=
  ids.foldl delIdx idx

theorem removeScan_run_aux (ids : List String) (rows : List ViewItem)
    (idx : List (String × Nat)) (s : Nat) (sd : Int) (s0 : Nat) (li : Nat)
    (h : removeRunB rows ids idx s = true) :
    removeScan ids rows idx sd (some s0) li =
      ⟨true, delAll idx ids, sd - heightSum ((rows.drop s).take ids.length),
        some s0, if ids.isEmpty then li else s + ids.length - 1,
        ids.map Notif.removeHook⟩ := by
  induction ids generalizing idx s sd li with
  | nil => simp [removeScan, delAll, heightSum]
  | cons id rest ih =>
    simp only [removeRunB, Bool.and_eq_true, Bool.not_eq_true', beq_iff_eq,
      decide_eq_true_eq] at h
    obtain ⟨⟨⟨hne, hl⟩, hs⟩, hrest⟩ := h
    have hne' : ¬ id = "" := beq_eq_false_iff_ne.mp hne
    have hvi : ∃ vi, rows.get? s = some vi := by
      rw [List.get?_eq_getElem?]
      exact ⟨rows[s], List.getElem?_eq_getElem hs⟩
    obtain ⟨vi, hvi⟩ := hvi
    simp only [removeScan, if_neg hne', hl, hvi, Option.getD_some]
    rw [ih (delIdx idx id) (s + 1) (sd - vi.height) s hrest]
    have hdrop : rows.drop s = vi :: rows.drop (s + 1) := by
      rw [List.get?_eq_getElem?] at hvi
      have h2 := List.getElem_cons_drop rows s hs
      rw [← h2]
      congr 1
      have h3 := List.getElem?_eq_getElem hs
      rw [h3] at hvi
      exact Option.some.inj hvi
    simp only [RemoveScan.mk.injEq]
    refine ⟨by trivial, by simp [delAll], ?_, by trivial, ?_, by simp⟩
    · rw [hdrop]
      simp only [List.length_cons, List.take_succ_cons, heightSum]
      ring
    · cases rest with
      | nil => simp
      | cons x xs =>
        simp only [List.isEmpty_cons, Bool.false_eq_true, if_false, List.length_cons]
        omega

theorem removeScan_top (rows : List ViewItem) (idx : List (String × Nat))
    (id0 : String) (ids : List String) (s : Nat)
    (hrun : removeRunB rows (id0 :: ids) idx s = true) :
    removeScan (id0 :: ids) rows idx 0 none 0 =
      ⟨true, delAll idx (id0 :: ids),
        -heightSum ((rows.drop s).take (id0 :: ids).length),
        some s, s + ids.length, (id0 :: ids).map Notif.removeHook⟩ := by
  simp only [removeRunB, Bool.and_eq_true, Bool.not_eq_true', beq_iff_eq,
    decide_eq_true_eq] at hrun
  obtain ⟨⟨⟨hne, hl⟩, hs⟩, hrest⟩ := hrun
  have hne' : ¬ id0 = "" := beq_eq_false_iff_ne.mp hne
  have hvi : ∃ vi, rows.get? s = some vi := by
    rw [List.get?_eq_getElem?]
    exact ⟨rows[s], List.getElem?_eq_getElem hs⟩
  obtain ⟨vi, hvi⟩ := hvi
  simp only [removeScan, if_neg hne', hl, hvi, Option.getD_none]
  rw [removeScan_run_aux ids rows (delIdx idx id0) (s + 1) (0 - vi.height) s s hrest]
  have hdrop : rows.drop s = vi :: rows.drop (s + 1) := by
    rw [List.get?_eq_getElem?] at hvi
    have h2 := List.getElem_cons_drop rows s hs
    rw [← h2]
    congr 1
    have h3 := List.getElem?_eq_getElem hs
    rw [h3] at hvi
    exact Option.some.inj hvi
  simp only [RemoveScan.mk.injEq]
  refine ⟨by trivial, by simp [delAll], ?_, by trivial, ?_, by simp⟩
  · rw [hdrop]
    simp only [List.length_cons, List.take_succ_cons, heightSum]
    ring
  · cases ids with
    | nil => simp
    | cons x xs =>
      simp only [List.isEmpty_cons, Bool.false_eq_true, if_false, List.length_cons]
      omega

/-- Splicing helpers: the pieces of `take s ++ drop (s + m)`. -/
theorem take_of_splice (rows : List ViewItem) (s m : Nat) (hs : s ≤ rows.length) :
    (rows.take s ++ rows.drop (s + m)).take s = rows.take s := by
  exact List.take_left' (by simp [List.length_take]; omega)

theorem drop_of_splice (rows : List ViewItem) (s m : Nat) (hs : s ≤ rows.length) :
    (rows.take s ++ rows.drop (s + m)).drop s = rows.drop (s + m) := by
  exact List.drop_left' (by simp [List.length_take]; omega)

/-- A valid remove preserves contiguity. -/
theorem I1B_remove (hm : HeightMap) (ids : List String)
    (h1 : I1B hm = true) (hv : validRemoveB hm ids = true) :
    I1B (hm.onRemoveItems ids).1 = true := by
  cases ids with
  | nil =>
    simpa [HeightMap.onRemoveItems, removeScan, I1B] using h1
  | cons id0 rest =>
    simp only [validRemoveB] at hv
    split at hv
    · simp at hv
    · rename_i s hl
      have hs : s < hm.heightMap.length := by
        have hv' := hv
        simp only [removeRunB, Bool.and_eq_true, decide_eq_true_eq] at hv'
        exact hv'.1.2
      have hchar := removeScan_top hm.heightMap hm.indexes id0 rest s hv
      unfold HeightMap.onRemoveItems
      simp only [hchar, List.length_cons]
      rw [if_neg (by simp : ¬ (true = false))]
      by_cases hz :
          -heightSum ((hm.heightMap.drop s).take (rest.length + 1)) = 0
      · rw [if_pos hz]
        simpa [I1B] using h1
      · rw [if_neg hz]
        have hcnt : (Int.ofNat (s + rest.length) - Int.ofNat s + 1).toNat
            = rest.length + 1 := by
          simp only [Int.ofNat_eq_natCast]; omega
        simp only [hcnt, shiftReindex_rows]
        rw [drop_of_splice _ _ _ (le_of_lt hs), take_of_splice _ _ _ (le_of_lt hs)]
        unfold I1B
        have hsplit := (contigB_append 0 (hm.heightMap.take s) (hm.heightMap.drop s)).mp
          (by rw [List.take_append_drop]; exact h1)
        have hdropsplit :
            ((hm.heightMap.drop s).take (rest.length + 1))
              ++ hm.heightMap.drop (s + (rest.length + 1)) = hm.heightMap.drop s := by
          have := List.take_append_drop (rest.length + 1) (hm.heightMap.drop s)
          rw [List.drop_drop] at this
          exact this
        have hsuf := hsplit.2
        rw [← hdropsplit] at hsuf
        rw [contigB_append] at hsuf
        rw [contigB_append]
        refine ⟨hsplit.1, ?_⟩
        have hshift := contigB_map_shift
          (0 + heightSum (List.take s hm.heightMap) +
            heightSum ((hm.heightMap.drop s).take (rest.length + 1)))
          (-heightSum ((hm.heightMap.drop s).take (id0 :: rest).length))
          (hm.heightMap.drop (s + (rest.length + 1))) hsuf.2
        convert hshift using 2
        simp only [List.length_cons]
        ring

/-! ## Refresh loop invariant -/

theorem contigB_split (rows : List ViewItem) (i : Nat)
    (h : contigB 0 rows = true) :
    contigB 0 (rows.take i) = true ∧
      contigB (0 + heightSum (rows.take i)) (rows.drop i) = true :=
  (contigB_append 0 (rows.take i) (rows.drop i)).mp
    (by rw [List.take_append_drop]; exact h)

theorem shiftSeg_eq (rows : List ViewItem) (j0 i : Nat) (cd : Int) (hji : j0 ≤ i) :
    shiftSeg rows j0 i cd =
      rows.take j0
        ++ (((rows.drop j0).take (i - j0)).map fun v => { v with top := v.top + cd })
        ++ rows.drop i := by
  unfold shiftSeg
  rw [max_eq_right hji]

/-- The state of the rows seen by one iteration of the refresh loop, after
the (possibly skipped) catch-up: contiguous up to the item's slot, the
remainder still holding its pre-shift offsets. -/
theorem refresh_pre (rows : List ViewItem) (j0 i : Nat) (cd : Int)
    (hji : j0 ≤ i) (hi : i ≤ rows.length)
    (h1 : contigB 0 (rows.take j0) = true)
    (h2 : contigB (heightSum (rows.take j0) - cd) (rows.drop j0) = true)
    (rows1 : List ViewItem)
    (hr : rows1 = if (cd != 0 && decide (j0 < i)) = true
        then shiftSeg rows j0 i cd else rows) :
    contigB 0 (rows1.take i) = true ∧
      contigB (heightSum (rows1.take i) - cd) (rows1.drop i) = true ∧
      rows1.length = rows.length ∧ rows1.drop i = rows.drop i := by
  have hjlen : j0 ≤ rows.length := le_trans hji hi
  have hmid : (rows.drop j0).take (i - j0) ++ rows.drop i = rows.drop j0 := by
    have := List.take_append_drop (i - j0) (rows.drop j0)
    rw [List.drop_drop] at this
    rw [show j0 + (i - j0) = i by omega] at this
    exact this
  have hmidsplit := (contigB_append (heightSum (rows.take j0) - cd)
    ((rows.drop j0).take (i - j0)) (rows.drop i)).mp (by rw [hmid]; exact h2)
  by_cases hcase : (cd != 0 && decide (j0 < i)) = true
  · rw [if_pos hcase] at hr
    rw [hr, shiftSeg_eq rows j0 i cd hji]
    have hlen1 : (rows.take j0).length = j0 := by simp [List.length_take]; omega
    have hlen2 : (((rows.drop j0).take (i - j0)).map
        fun v : ViewItem => { v with top := v.top + cd }).length = i - j0 := by
      simp [List.length_map, List.length_take, List.length_drop]
      omega
    have hlenpre : (rows.take j0
        ++ ((rows.drop j0).take (i - j0)).map
          (fun v : ViewItem => { v with top := v.top + cd })).length = i := by
      simp only [List.length_append, hlen1, hlen2]
      omega
    have htake : (rows.take j0
        ++ ((rows.drop j0).take (i - j0)).map (fun v : ViewItem => { v with top := v.top + cd })
        ++ rows.drop i).take i =
        rows.take j0
        ++ ((rows.drop j0).take (i - j0)).map (fun v : ViewItem => { v with top := v.top + cd }) := by
      exact List.take_left' hlenpre
    have hdrop : (rows.take j0
        ++ ((rows.drop j0).take (i - j0)).map (fun v : ViewItem => { v with top := v.top + cd })
        ++ rows.drop i).drop i = rows.drop i := by
      exact List.drop_left' hlenpre
    rw [htake, hdrop]
    have hcontig1 : contigB 0 (rows.take j0
        ++ ((rows.drop j0).take (i - j0)).map fun v : ViewItem => { v with top := v.top + cd })
        = true := by
      rw [contigB_append]
      refine ⟨h1, ?_⟩
      have := contigB_map_shift (heightSum (rows.take j0) - cd) cd
        ((rows.drop j0).take (i - j0)) hmidsplit.1
      convert this using 2
      ring
    refine ⟨hcontig1, ?_, ?_, rfl⟩
    · rw [heightSum_append, heightSum_map_shift]
      have := hmidsplit.2
      convert this using 2
      ring
    · simp only [List.length_append, hlen1, hlen2, List.length_drop]
      omega
  · rw [if_neg hcase] at hr
    rw [hr]
    simp only [Bool.and_eq_true, bne_iff_ne, ne_eq, decide_eq_true_eq, not_and,
      not_lt] at hcase
    by_cases hcd : cd = 0
    · subst hcd
      have hall : contigB 0 rows = true := by
        rw [← List.take_append_drop j0 rows, contigB_append]
        refine ⟨h1, ?_⟩
        convert h2 using 2
        ring
      obtain ⟨hA, hB⟩ := contigB_split rows i hall
      refine ⟨hA, ?_, rfl, rfl⟩
      convert hB using 2
      ring
    · have hij : j0 = i := le_antisymm hji (hcase hcd)
      subst hij
      exact ⟨h1, h2, rfl, rfl⟩

theorem drop_eq_get_cons (rows : List ViewItem) (i : Nat) (vi : ViewItem)
    (h : rows.get? i = some vi) : rows.drop i = vi :: rows.drop (i + 1) := by
  have hi : i < rows.length := by
    rcases List.get?_eq_some.mp h with ⟨hlt, _⟩
    exact hlt
  have h2 := List.getElem_cons_drop rows i hi
  rw [← h2]
  congr 1
  rw [List.get?_eq_getElem?, List.getElem?_eq_getElem hi] at h
  exact Option.some.inj h

/-- One refresh-loop update of row `i` re-establishes the invariant one
slot further right, with the height delta folded into `cummDiff`. -/
theorem refresh_step (rows : List ViewItem) (i : Nat) (cd nh : Int) (vi : ViewItem)
    (hi : i < rows.length)
    (hvi : rows.get? i = some vi)
    (hA : contigB 0 (rows.take i) = true)
    (hB : contigB (heightSum (rows.take i) - cd) (rows.drop i) = true) :
    (rows.set i { vi with top := vi.top + cd, height := nh }).length = rows.length ∧
      contigB 0 ((rows.set i { vi with top := vi.top + cd, height := nh }).take (i + 1)) = true ∧
      contigB (heightSum ((rows.set i { vi with top := vi.top + cd, height := nh }).take (i + 1))
          - (cd + (nh - vi.height)))
        ((rows.set i { vi with top := vi.top + cd, height := nh }).drop (i + 1)) = true := by
  have hset := List.set_eq_take_cons_drop
    ({ vi with top := vi.top + cd, height := nh }) hi
  have hdropi := drop_eq_get_cons rows i vi hvi
  rw [hdropi] at hB
  simp only [contigB, Bool.and_eq_true, beq_iff_eq] at hB
  obtain ⟨htop, htail⟩ := hB
  have hlenA : (rows.take i ++ [({ vi with top := vi.top + cd, height := nh } : ViewItem)]).length
      = i + 1 := by
    simp [List.length_append, List.length_take]
    omega
  have hassoc : rows.take i ++ ({ vi with top := vi.top + cd, height := nh } : ViewItem)
        :: rows.drop (i + 1)
      = (rows.take i ++ [({ vi with top := vi.top + cd, height := nh } : ViewItem)])
        ++ rows.drop (i + 1) := by
    rw [List.append_assoc]
    rfl
  have htake : (rows.set i { vi with top := vi.top + cd, height := nh }).take (i + 1)
      = rows.take i ++ [({ vi with top := vi.top + cd, height := nh } : ViewItem)] := by
    rw [hset, hassoc]
    exact List.take_left' hlenA
  have hdrop : (rows.set i { vi with top := vi.top + cd, height := nh }).drop (i + 1)
      = rows.drop (i + 1) := by
    rw [hset, hassoc]
    exact List.drop_left' hlenA
  refine ⟨List.length_set rows i _, ?_, ?_⟩
  · rw [htake, contigB_append]
    refine ⟨hA, ?_⟩
    simp only [contigB, Bool.and_eq_true, beq_iff_eq]
    refine ⟨?_, trivial⟩
    rw [htop]
    ring
  · rw [htake, hdrop, heightSum_append]
    have : heightSum [({ vi with top := vi.top + cd, height := nh } : ViewItem)] = nh := by
      simp [heightSum]
    rw [this]
    convert htail using 2
    rw [htop]
    ring

theorem idsOf_append (A B : List ViewItem) : idsOf (A ++ B) = idsOf A ++ idsOf B :=
  List.map_append _ A B

theorem idsOf_map_shift (l : List ViewItem) (d : Int) :
    idsOf (l.map fun v => { v with top := v.top + d }) = idsOf l := by
  unfold idsOf
  rw [List.map_map]
  rfl

theorem take_split (rows : List ViewItem) (j0 i : Nat) (hji : j0 ≤ i) :
    rows.take i = rows.take j0 ++ (rows.drop j0).take (i - j0) := by
  rw [List.take_drop, show j0 + (i - j0) = i by omega]
  rw [show rows.take j0 = (rows.take i).take j0 by
    rw [List.take_take, min_eq_left hji]]
  exact (List.take_append_drop j0 (rows.take i)).symm

theorem idsOf_shiftSeg (rows : List ViewItem) (a bnd : Nat) (d : Int)
    (hab : a ≤ bnd) :
    idsOf (shiftSeg rows a bnd d) = idsOf rows := by
  rw [shiftSeg_eq rows a bnd d hab, idsOf_append, idsOf_append, idsOf_map_shift,
    ← idsOf_append, ← take_split rows a bnd hab, ← idsOf_append,
    List.take_append_drop]

theorem length_shiftSeg (rows : List ViewItem) (a bnd : Nat) (d : Int)
    (hab : a ≤ bnd) :
    (shiftSeg rows a bnd d).length = rows.length := by
  have := congrArg List.length (idsOf_shiftSeg rows a bnd d hab)
  simpa [idsOf, List.length_map] using this

theorem idsOf_set (rows : List ViewItem) (i : Nat) (vi vi2 : ViewItem)
    (hvi : rows.get? i = some vi) (hm : vi2.model = vi.model) :
    idsOf (rows.set i vi2) = idsOf rows := by
  have hi : i < rows.length := by
    rcases List.get?_eq_some.mp hvi with ⟨hlt, _⟩
    exact hlt
  rw [List.set_eq_take_cons_drop vi2 hi]
  have hdropi := drop_eq_get_cons rows i vi hvi
  conv_rhs => rw [← List.take_append_drop i rows, hdropi]
  rw [idsOf_append, idsOf_append]
  unfold idsOf
  simp [hm]

theorem refreshLoop_inv (items : List Item) (rows : List ViewItem)
    (idx : List (String × Nat)) (j0 : Nat) (cd : Int)
    (hasc : ascRunB idx rows.length items j0 = true)
    (hj : j0 ≤ rows.length)
    (h1 : contigB 0 (rows.take j0) = true)
    (h2 : contigB (heightSum (rows.take j0) - cd) (rows.drop j0) = true) :
    ∃ rowsF jF cdF tr,
      refreshLoop items rows idx (some j0) cd = some (rowsF, some jF, cdF, tr) ∧
      jF ≤ rowsF.length ∧ rowsF.length = rows.length ∧
      contigB 0 (rowsF.take jF) = true ∧
      contigB (heightSum (rowsF.take jF) - cdF) (rowsF.drop jF) = true ∧
      idsOf rowsF = idsOf rows := by
  induction items generalizing rows j0 cd with
  | nil =>
    exact ⟨rows, j0, cd, [], rfl, hj, rfl, h1, h2, rfl⟩
  | cons it rest ih =>
    simp only [ascRunB] at hasc
    split at hasc
    · exact absurd hasc (by simp)
    · rename_i o1 i hlook
      simp only [Bool.and_eq_true, decide_eq_true_eq] at hasc
      obtain ⟨⟨hji, hi⟩, hrest⟩ := hasc
      have hpre := refresh_pre rows j0 i cd hji (le_of_lt hi) h1 h2
        (if (cd != 0 && decide (j0 < i)) = true then shiftSeg rows j0 i cd else rows) rfl
      obtain ⟨hA, hB, hC, hD⟩ := hpre
      have hvex : ∃ v, rows.get? i = some v := by
        rw [List.get?_eq_getElem?]
        exact ⟨rows[i], List.getElem?_eq_getElem hi⟩
      obtain ⟨vi, hvi⟩ := hvex
      have hvi1 : (if (cd != 0 && decide (j0 < i)) = true
          then shiftSeg rows j0 i cd else rows).get? i = some vi := by
        rw [List.get?_eq_getElem?]
        have e1 := List.getElem?_drop
          (if (cd != 0 && decide (j0 < i)) = true then shiftSeg rows j0 i cd else rows) i 0
        have e2 := List.getElem?_drop rows i 0
        rw [hD] at e1
        rw [e2] at e1
        rw [Nat.add_zero] at e1
        rw [← e1]
        rw [List.get?_eq_getElem?] at hvi
        exact hvi
      have hi1 : i < (if (cd != 0 && decide (j0 < i)) = true
          then shiftSeg rows j0 i cd else rows).length := by
        rw [hC]; exact hi
      have hstep := refresh_step
        (if (cd != 0 && decide (j0 < i)) = true then shiftSeg rows j0 i cd else rows)
        i cd it.getHeight vi hi1 hvi1 hA hB
      obtain ⟨hlen2, hA2, hB2⟩ := hstep
      have hasc2 : ascRunB idx
          ((if (cd != 0 && decide (j0 < i)) = true then shiftSeg rows j0 i cd
            else rows).set i { vi with top := vi.top + cd, height := it.getHeight }).length
          rest (i + 1) = true := by
        rw [hlen2, hC]; exact hrest
      have hj2 : i + 1 ≤
          ((if (cd != 0 && decide (j0 < i)) = true then shiftSeg rows j0 i cd
            else rows).set i { vi with top := vi.top + cd, height := it.getHeight }).length := by
        rw [hlen2, hC]; exact hi
      obtain ⟨rowsF, jF, cdF, trF, heq, hjF, hlenF, hF1, hF2, hFids⟩ :=
        ih _ (i + 1) (cd + (it.getHeight - vi.height)) hasc2 hj2 hA2 hB2
      refine ⟨rowsF, jF, cdF, ?_, ?_, hjF, ?_, hF1, hF2, ?_⟩
      · exact (if (cd != 0 && decide (j0 < i)) = true
          then ((rows.drop j0).take (i - j0)).map fun v => Notif.refreshed v.model.id false
          else [])
          ++ (Notif.refreshed vi.model.id true :: trF)
      · simp only [refreshLoop, hlook, Option.getD_some, hvi1, heq]
      · rw [hlenF, hlen2, hC]
      · rw [hFids, idsOf_set _ i vi
          { vi with top := vi.top + cd, height := it.getHeight } hvi1 rfl]
        split
        · rename_i hdc
          have hji2 : j0 < i := by
            rcases (Bool.and_eq_true _ _).mp hdc with ⟨_, hx⟩
            exact of_decide_eq_true hx
          exact idsOf_shiftSeg rows j0 i cd (le_of_lt hji2)
        · rfl

/-- A refresh of present items at strictly ascending slots succeeds and
preserves contiguity. -/
theorem onRefreshItems_I1 (hm : HeightMap) (items : List Item)
    (h1 : I1B hm = true)
    (hasc : ascRunB hm.indexes hm.heightMap.length items 0 = true) :
    ∃ hm2 tr, hm.onRefreshItems items = some (hm2, tr) ∧ I1B hm2 = true ∧
      hm2.indexes = hm.indexes ∧ idsOf hm2.heightMap = idsOf hm.heightMap := by
  obtain ⟨rows, idx⟩ := hm
  simp only [I1B] at h1 ⊢
  cases items with
  | nil =>
    refine ⟨⟨rows, idx⟩, [], ?_, h1, rfl, rfl⟩
    simp [HeightMap.onRefreshItems, refreshLoop]
  | cons it rest =>
    simp only [ascRunB] at hasc
    split at hasc
    · exact absurd hasc (by simp)
    · rename_i o1 i hlook
      simp only [Bool.and_eq_true, decide_eq_true_eq] at hasc
      obtain ⟨⟨hji, hi⟩, hrest⟩ := hasc
      have hvex : ∃ v, rows.get? i = some v := by
        rw [List.get?_eq_getElem?]
        exact ⟨rows[i], List.getElem?_eq_getElem hi⟩
      obtain ⟨vi, hvi⟩ := hvex
      obtain ⟨hA, hB⟩ := contigB_split rows i h1
      have hB' : contigB (heightSum (rows.take i) - 0) (rows.drop i) = true := by
        convert hB using 2
        ring
      have hstep := refresh_step rows i 0 it.getHeight vi hi hvi hA hB'
      obtain ⟨hlen2, hA2, hB2⟩ := hstep
      have hasc2 : ascRunB idx
          (rows.set i { vi with top := vi.top + 0, height := it.getHeight }).length
          rest (i + 1) = true := by
        rw [hlen2]; exact hrest
      have hj2 : i + 1 ≤
          (rows.set i { vi with top := vi.top + 0, height := it.getHeight }).length := by
        rw [hlen2]; exact hi
      obtain ⟨rowsF, jF, cdF, trF, heq, hjF, hlenF, hF1, hF2, hFids⟩ :=
        refreshLoop_inv rest _ idx (i + 1) (0 + (it.getHeight - vi.height))
          hasc2 hj2 hA2 hB2
      have hidsF : idsOf rowsF = idsOf rows := by
        rw [hFids]
        exact idsOf_set _ i vi _ hvi rfl
      have hcatch : (((0 : Int) != 0) && (match (none : Option Nat) with
          | some j0 => decide (j0 < i) | none => false)) = false := rfl
      have hloopeq : refreshLoop (it :: rest) rows idx none 0 =
          some (rowsF, some jF, cdF,
            Notif.refreshed vi.model.id true :: trF) := by
        simp only [refreshLoop, hlook, hcatch, Bool.false_eq_true, if_false, hvi, heq]
        rfl
      by_cases hcz : cdF = 0
      · refine ⟨⟨rowsF, idx⟩, Notif.refreshed vi.model.id true :: trF, ?_, ?_, rfl,
          hidsF⟩
        · simp only [HeightMap.onRefreshItems, hloopeq]
          rw [if_neg (by simp [hcz])]
        · rw [← List.take_append_drop jF rowsF, contigB_append]
          refine ⟨hF1, ?_⟩
          convert hF2 using 2
          rw [hcz]
          ring
      · refine ⟨⟨rowsF.take jF
            ++ (rowsF.drop jF).map fun v => { v with top := v.top + cdF }, idx⟩,
            (Notif.refreshed vi.model.id true :: trF)
              ++ ((rowsF.drop jF).map fun v => { v with top := v.top + cdF }).map
                (fun v => Notif.refreshed v.model.id false), ?_, ?_, rfl, ?_⟩
        · simp only [HeightMap.onRefreshItems, hloopeq]
          rw [if_pos hcz]
        · rw [contigB_append]
          refine ⟨hF1, ?_⟩
          have := contigB_map_shift (heightSum (rowsF.take jF) - cdF) cdF
            (rowsF.drop jF) hF2
          convert this using 2
          ring
        · show idsOf (rowsF.take jF
              ++ (rowsF.drop jF).map fun v => { v with top := v.top + cdF })
              = idsOf rows
          rw [idsOf_append, idsOf_map_shift, ← idsOf_append, List.take_append_drop]
          exact hidsF

/-- Each valid operation preserves contiguity. -/
theorem I1B_applyOp (hm : HeightMap) (op : Op)
    (h1 : I1B hm = true) (hv : validOpB hm op = true) :
    I1B (applyOp hm op) = true := by
  cases op with
  | insert items aft =>
    cases hres : hm.onInsertItems items aft with
    | none => simpa [applyOp, hres] using h1
    | some r =>
      obtain ⟨hm2, sd, tr⟩ := r
      simpa [applyOp, hres] using I1B_insert hm items aft hm2 sd tr h1 hres
  | remove ids =>
    exact I1B_remove hm ids h1 (by simpa [validOpB] using hv)
  | refresh items =>
    obtain ⟨hm2, tr, heq, h2, _, _⟩ := onRefreshItems_I1 hm items h1
      (by simpa [validOpB] using hv)
    simpa [applyOp, heq] using h2

theorem validSeqB_runOps_I1 (l1 : List Op) (hm : HeightMap) (l2 : List Op)
    (h1 : I1B hm = true) (hv : validSeqB hm (l1 ++ l2) = true) :
    I1B (runOps hm l1) = true := by
  induction l1 generalizing hm with
  | nil => exact h1
  | cons op l1' ih =>
    simp only [List.cons_append, validSeqB, Bool.and_eq_true] at hv
    exact ih (applyOp hm op) (I1B_applyOp hm op h1 hv.1) hv.2

/-- C1: for every valid sequence of insert (anchor present or none),
remove (of a present contiguous run), and refresh (of present items in
ascending slot order) operations starting from the empty map, after each
operation completes — i.e. after every prefix of the sequence — every
adjacent pair of rows satisfies `offset[k+1] = offset[k] + extent[k]` and
the first row's offset is 0 (invariant I1, `I1B`). -/
theorem c1_contiguity_invariant (ops l1 l2 : List Op)
    (hv : validSeqB HeightMap.empty ops = true)
    (hsplit : ops = l1 ++ l2) :
    I1B (runOps HeightMap.empty l1) = true := by
  subst hsplit
  exact validSeqB_runOps_I1 l1 HeightMap.empty l2 rfl hv

theorem c1_contiguity_invariant_witness :
    validSeqB HeightMap.empty
      [Op.insert [⟨"a", 10⟩, ⟨"b", 20⟩, ⟨"c", 30⟩] none,
        Op.refresh [⟨"b", 5⟩], Op.remove ["a", "b"]] = true
    ∧ I1B (runOps HeightMap.empty
        [Op.insert [⟨"a", 10⟩, ⟨"b", 20⟩, ⟨"c", 30⟩] none,
          Op.refresh [⟨"b", 5⟩]]) = true :=
  ⟨by decide,
    c1_contiguity_invariant
      [Op.insert [⟨"a", 10⟩, ⟨"b", 20⟩, ⟨"c", 30⟩] none,
        Op.refresh [⟨"b", 5⟩], Op.remove ["a", "b"]]
      [Op.insert [⟨"a", 10⟩, ⟨"b", 20⟩, ⟨"c", 30⟩] none,
        Op.refresh [⟨"b", 5⟩]]
      [Op.remove ["a", "b"]] (by decide) rfl⟩

/-! ## Binary search -/

theorem heightSum_nonneg (l : List ViewItem) (h : ∀ v ∈ l, 0 ≤ v.height) :
    0 ≤ heightSum l := by
  induction l with
  | nil => simp [heightSum]
  | cons v rest ih =>
    simp only [heightSum]
    have h1 := h v (by simp)
    have h2 := ih fun w hw => h w (by simp [hw])
    omega

theorem heightSum_take_mono (rows : List ViewItem) (k k' : Nat)
    (hh : ∀ v ∈ rows, 0 ≤ v.height) (hkk : k ≤ k') :
    heightSum (rows.take k) ≤ heightSum (rows.take k') := by
  rw [take_split rows k k' hkk, heightSum_append]
  have : 0 ≤ heightSum ((rows.drop k).take (k' - k)) := by
    refine heightSum_nonneg _ fun v hv => hh v ?_
    exact List.mem_of_mem_drop (List.mem_of_mem_take hv)
  omega

theorem contigB_top_zero (rows : List ViewItem) (k : Nat) (v : ViewItem)
    (hc : contigB 0 rows = true) (hg : rows.get? k = some v) :
    v.top = heightSum (rows.take k) := by
  have := contigB_get_top 0 rows k v hc hg
  simpa using this

theorem contigB_top_height_zero (rows : List ViewItem) (k : Nat) (v : ViewItem)
    (hc : contigB 0 rows = true) (hg : rows.get? k = some v) :
    v.top + v.height = heightSum (rows.take (k + 1)) := by
  have := contigB_get_top_add_height 0 rows k v hc hg
  simpa using this

/-- Under I1 the total extent is the height sum. -/
theorem getTotalHeight_eq_heightSum (hm : HeightMap) (h1 : I1B hm = true) :
    hm.getTotalHeight = heightSum hm.heightMap := by
  unfold HeightMap.getTotalHeight
  cases hlast : hm.heightMap.getLast? with
  | none =>
    rw [List.getLast?_eq_none_iff] at hlast
    rw [hlast]
    rfl
  | some last =>
    have hne : hm.heightMap ≠ [] := by
      intro he
      rw [he] at hlast
      simp at hlast
    have hk : hm.heightMap.get? (hm.heightMap.length - 1) = some last := by
      rw [List.getLast?_eq_getElem?] at hlast
      rw [List.get?_eq_getElem?]
      exact hlast
    have h2 := contigB_top_height_zero hm.heightMap (hm.heightMap.length - 1) last h1 hk
    have hlen : hm.heightMap.length - 1 + 1 = hm.heightMap.length := by
      have : hm.heightMap.length ≠ 0 := by
        simpa [List.length_eq_zero] using hne
      omega
    rw [hlen] at h2
    show last.top + last.height = heightSum hm.heightMap
    rw [h2, List.take_length]

/-- The binary search returns the slot whose half-open window contains the
sought position, whenever the search window `[l, r)` brackets it. -/
theorem indexAtGo_found (rows : List ViewItem) (p : Int) (s : Nat)
    (hc : contigB 0 rows = true)
    (hh : ∀ v ∈ rows, 0 ≤ v.height)
    (hTs : heightSum (rows.take s) ≤ p)
    (hTs1 : p < heightSum (rows.take (s + 1))) :
    ∀ l r : Nat, r ≤ rows.length →
      heightSum (rows.take l) ≤ p → p < heightSum (rows.take r) →
      l ≤ s → s < r →
      indexAtGo rows rows.length p l r = s := by
  intro l r
  induction l, r using indexAtGo.induct rows rows.length p with
  | case1 l r hlr hget =>
    intro hrn hTl hTr hls hsr
    exfalso
    have hcr : (l + r) / 2 < rows.length := by omega
    rw [List.get?_eq_getElem?, List.getElem?_eq_getElem hcr] at hget
    exact absurd hget (by simp)
  | case2 l r hlr vi hget hplt ih =>
    intro hrn hTl hTr hls hsr
    have hcr : (l + r) / 2 < r := by omega
    have htopc := contigB_top_zero rows ((l + r) / 2) vi hc hget
    have hsc : s < (l + r) / 2 := by
      by_contra hcon
      push_neg at hcon
      have := heightSum_take_mono rows ((l + r) / 2) s hh hcon
      omega
    have := ih (by omega) hTl (by omega) hls hsc
    rw [indexAtGo]
    rw [dif_pos hlr]
    simp only [hget]
    rw [if_pos hplt]
    exact this
  | case3 l r hlr vi hget hnlt hge hlc =>
    intro hrn hTl hTr hls hsr
    exfalso
    have hr1 : r = l + 1 := by omega
    have hsl : s = l := by omega
    have hth := contigB_top_height_zero rows ((l + r) / 2) vi hc hget
    have hcl : (l + r) / 2 = l := hlc.symm
    rw [hcl] at hth
    subst hsl
    omega
  | case4 l r hlr vi hget hnlt hge hnlc ih =>
    intro hrn hTl hTr hls hsr
    have hcl : l < (l + r) / 2 := by
      rcases Nat.lt_or_ge l ((l + r) / 2) with h | h
      · exact h
      · exfalso; exact hnlc (by omega)
    have hth := contigB_top_height_zero rows ((l + r) / 2) vi hc hget
    have hcs : (l + r) / 2 ≤ s := by
      by_contra hcon
      push_neg at hcon
      have hmono := heightSum_take_mono rows (s + 1) ((l + r) / 2) hh (by omega)
      have hmono2 := heightSum_take_mono rows ((l + r) / 2) ((l + r) / 2 + 1) hh
        (by omega)
      omega
    have htopc := contigB_top_zero rows ((l + r) / 2) vi hc hget
    have hTc : heightSum (rows.take ((l + r) / 2)) ≤ p := by
      have hmono := heightSum_take_mono rows ((l + r) / 2) ((l + r) / 2 + 1) hh
        (by omega)
      omega
    have := ih hrn hTc hTr hcs hsr
    rw [indexAtGo]
    rw [dif_pos hlr]
    simp only [hget]
    rw [if_neg hnlt]
    rw [if_pos hge]
    rw [dif_neg hnlc]
    exact this
  | case5 l r hlr vi hget hnlt hnge =>
    intro hrn hTl hTr hls hsr
    have htopc := contigB_top_zero rows ((l + r) / 2) vi hc hget
    have hth := contigB_top_height_zero rows ((l + r) / 2) vi hc hget
    have hcs : (l + r) / 2 = s := by
      by_contra hcon
      rcases Nat.lt_or_ge ((l + r) / 2) s with h | h
      · have hmono := heightSum_take_mono rows ((l + r) / 2 + 1) s hh (by omega)
        omega
      · have hlt : s < (l + r) / 2 := by omega
        have hmono := heightSum_take_mono rows (s + 1) ((l + r) / 2) hh (by omega)
        omega
    rw [indexAtGo]
    rw [dif_pos hlr]
    simp only [hget]
    rw [if_neg hnlt]
    rw [if_neg hnge]
    exact hcs
  | case6 l r hnlr =>
    intro hrn hTl hTr hls hsr
    exfalso
    have hmono := heightSum_take_mono rows l r hh (by omega)
    have hmono2 := heightSum_take_mono rows r l hh (by omega)
    omega

/-- When the sought position is at or beyond the extent of the search
window's right edge, the binary search falls through to the sentinel. -/
theorem indexAtGo_high (rows : List ViewItem) (p : Int)
    (hc : contigB 0 rows = true)
    (hh : ∀ v ∈ rows, 0 ≤ v.height) :
    ∀ l r : Nat, r ≤ rows.length →
      heightSum (rows.take r) ≤ p →
      indexAtGo rows rows.length p l r = rows.length := by
  intro l r
  induction l, r using indexAtGo.induct rows rows.length p with
  | case1 l r hlr hget =>
    intro hrn hTr
    exfalso
    have hcr : (l + r) / 2 < rows.length := by omega
    rw [List.get?_eq_getElem?, List.getElem?_eq_getElem hcr] at hget
    exact absurd hget (by simp)
  | case2 l r hlr vi hget hplt ih =>
    intro hrn hTr
    exfalso
    have htopc := contigB_top_zero rows ((l + r) / 2) vi hc hget
    have hmono := heightSum_take_mono rows ((l + r) / 2) r hh (by omega)
    omega
  | case3 l r hlr vi hget hnlt hge hlc =>
    intro hrn hTr
    rw [indexAtGo, dif_pos hlr]
    simp only [hget]
    rw [if_neg hnlt, if_pos hge, dif_pos hlc]
  | case4 l r hlr vi hget hnlt hge hnlc ih =>
    intro hrn hTr
    have := ih hrn hTr
    rw [indexAtGo, dif_pos hlr]
    simp only [hget]
    rw [if_neg hnlt, if_pos hge, dif_neg hnlc]
    exact this
  | case5 l r hlr vi hget hnlt hnge =>
    intro hrn hTr
    exfalso
    have hth := contigB_top_height_zero rows ((l + r) / 2) vi hc hget
    have hmono := heightSum_take_mono rows ((l + r) / 2 + 1) r hh (by omega)
    omega
  | case6 l r hnlr =>
    intro hrn hTr
    rw [indexAtGo, dif_neg hnlr]

/-- A negative position never lies in any window once all offsets and
extents are non-negative, so the binary search returns the sentinel. -/
theorem indexAtGo_low (rows : List ViewItem) (p : Int)
    (htops : ∀ v ∈ rows, 0 ≤ v.top)
    (hp : p < 0) :
    ∀ l r : Nat, indexAtGo rows rows.length p l r = rows.length := by
  intro l r
  induction l, r using indexAtGo.induct rows rows.length p with
  | case1 l r hlr hget =>
    rw [indexAtGo, dif_pos hlr]
    simp only [hget]
  | case2 l r hlr vi hget hplt ih =>
    rw [indexAtGo, dif_pos hlr]
    simp only [hget]
    rw [if_pos hplt]
    exact ih
  | case3 l r hlr vi hget hnlt hge hlc =>
    exfalso
    have hmem : vi ∈ rows := by
      rw [List.get?_eq_getElem?] at hget
      exact List.getElem?_mem hget
    have h1 := htops vi hmem
    omega
  | case4 l r hlr vi hget hnlt hge hnlc ih =>
    exfalso
    have hmem : vi ∈ rows := by
      rw [List.get?_eq_getElem?] at hget
      exact List.getElem?_mem hget
    have h1 := htops vi hmem
    omega
  | case5 l r hlr vi hget hnlt hnge =>
    exfalso
    have hmem : vi ∈ rows := by
      rw [List.get?_eq_getElem?] at hget
      exact List.getElem?_mem hget
    have h1 := htops vi hmem
    omega
  | case6 l r hnlr =>
    rw [indexAtGo, dif_neg hnlr]

/-- Existence of the containing slot for an in-range position. -/
theorem exists_slot (rows : List ViewItem) (p : Int)
    (h0 : 0 ≤ p) (hp : p < heightSum rows) :
    ∃ s, s < rows.length ∧ heightSum (rows.take s) ≤ p ∧
      p < heightSum (rows.take (s + 1)) := by
  have hne : rows ≠ [] := by
    intro he
    rw [he] at hp
    simp [heightSum] at hp
    omega
  have hlen : 1 ≤ rows.length := by
    cases rows with
    | nil => exact absurd rfl hne
    | cons a as => simp
  have hQ : ∃ m, p < heightSum (rows.take (m + 1)) := by
    refine ⟨rows.length - 1, ?_⟩
    rw [show rows.length - 1 + 1 = rows.length by omega, List.take_length]
    exact hp
  classical
  let s := Nat.find hQ
  have hQs : p < heightSum (rows.take (s + 1)) := Nat.find_spec hQ
  have hmin : ∀ m < s, ¬ p < heightSum (rows.take (m + 1)) :=
    fun m hm => Nat.find_min hQ hm
  refine ⟨s, ?_, ?_, hQs⟩
  · have : s ≤ rows.length - 1 := Nat.find_min' hQ (by
      rw [show rows.length - 1 + 1 = rows.length by omega, List.take_length]
      exact hp)
    omega
  · cases hs0 : s with
    | zero => simpa [heightSum] using h0
    | succ m =>
      have := hmin m (by omega)
      push_neg at this
      simpa using this

/-- C3: under I1 with non-negative extents, for every position `p` in
`[0, totalExtent())`, `indexAt(p)` returns the unique slot whose half-open
window `[offset, offset+extent)` contains `p`; for `p ≥ totalExtent()`,
and for the empty sequence, it returns the past-end sentinel `n`. -/
theorem c3_indexAt_correct (hm : HeightMap) (p : Int)
    (h1 : I1B hm = true)
    (hh : ∀ v ∈ hm.heightMap, 0 ≤ v.height) :
    (0 ≤ p → p < hm.getTotalHeight →
      ∃ v, hm.heightMap.get? (hm.indexAt p) = some v ∧ v.top ≤ p ∧
        p < v.top + v.height ∧
        (∀ s2 v2, hm.heightMap.get? s2 = some v2 → v2.top ≤ p →
          p < v2.top + v2.height → s2 = hm.indexAt p))
    ∧ (hm.getTotalHeight ≤ p → hm.indexAt p = hm.heightMap.length)
    ∧ (hm.heightMap = [] → hm.indexAt p = hm.heightMap.length) := by
  have htot := getTotalHeight_eq_heightSum hm h1
  refine ⟨?_, ?_, ?_⟩
  · intro h0 hp
    rw [htot] at hp
    obtain ⟨s, hs, hTs, hTs1⟩ := exists_slot hm.heightMap p h0 hp
    have hfound := indexAtGo_found hm.heightMap p s h1 hh hTs hTs1 0
      hm.heightMap.length (le_refl _) (by simpa [heightSum] using h0)
      (by rw [List.take_length]; exact hp) (Nat.zero_le s) hs
    have hidx : hm.indexAt p = s := hfound
    rw [hidx]
    have hvex : ∃ v, hm.heightMap.get? s = some v := by
      rw [List.get?_eq_getElem?]
      exact ⟨hm.heightMap[s], List.getElem?_eq_getElem hs⟩
    obtain ⟨v, hv⟩ := hvex
    have htop := contigB_top_zero hm.heightMap s v h1 hv
    have hth := contigB_top_height_zero hm.heightMap s v h1 hv
    refine ⟨v, hv, by omega, by omega, ?_⟩
    intro s2 v2 hv2 hw1 hw2
    have htop2 := contigB_top_zero hm.heightMap s2 v2 h1 hv2
    have hth2 := contigB_top_height_zero hm.heightMap s2 v2 h1 hv2
    by_contra hne
    rcases Nat.lt_or_ge s2 s with hlt | hge2
    · have hmono := heightSum_take_mono hm.heightMap (s2 + 1) s hh (by omega)
      omega
    · have hlt : s < s2 := by omega
      have hmono := heightSum_take_mono hm.heightMap (s + 1) s2 hh (by omega)
      omega
  · intro hp
    rw [htot] at hp
    exact indexAtGo_high hm.heightMap p h1 hh 0 hm.heightMap.length (le_refl _)
      (by rw [List.take_length]; exact hp)
  · intro he
    unfold HeightMap.indexAt
    rw [he]
    rw [indexAtGo, dif_neg (by simp)]

/-- Scenario-A sample state: three rows of heights 10, 20, 30. -/
def hmA : HeightMap :=
  ⟨[⟨⟨"a", 10⟩, 0, 10⟩, ⟨⟨"b", 20⟩, 10, 20⟩, ⟨⟨"c", 30⟩, 30, 30⟩],
    [("a", 0), ("b", 1), ("c", 2)]⟩

theorem c3_indexAt_correct_witness :
    I1B hmA = true ∧ (∀ v ∈ hmA.heightMap, 0 ≤ v.height) ∧
      ((0 ≤ (35 : Int) → (35 : Int) < hmA.getTotalHeight →
        ∃ v, hmA.heightMap.get? (hmA.indexAt 35) = some v ∧ v.top ≤ 35 ∧
          (35 : Int) < v.top + v.height ∧
          (∀ s2 v2, hmA.heightMap.get? s2 = some v2 → v2.top ≤ 35 →
            (35 : Int) < v2.top + v2.height → s2 = hmA.indexAt 35))
      ∧ (hmA.getTotalHeight ≤ 35 → hmA.indexAt 35 = hmA.heightMap.length)
      ∧ (hmA.heightMap = [] → hmA.indexAt 35 = hmA.heightMap.length)) :=
  ⟨by decide, by decide, c3_indexAt_correct hmA 35 (by decide) (by decide)⟩

theorem tops_nonneg (rows : List ViewItem) (hc : contigB 0 rows = true)
    (hh : ∀ v ∈ rows, 0 ≤ v.height) : ∀ v ∈ rows, 0 ≤ v.top := by
  intro v hv
  obtain ⟨k, hk⟩ := List.mem_iff_getElem?.mp hv
  have htop := contigB_top_zero rows k v hc (by rw [List.get?_eq_getElem?]; exact hk)
  rw [htop]
  exact heightSum_nonneg _ fun w hw => hh w (List.mem_of_mem_take hw)

/-- C9: for every position contained in no row's window — negative, at or
past the total extent, or the sequence empty — `indexAt` returns the
past-end sentinel, where no row exists, so the unguarded
`heightMap[indexAt(position)].model.id` access of `itemAt` hits the
missing-row error branch (modelled as `none`) instead of an identity. -/
theorem c9_itemAt_out_of_range (hm : HeightMap) (p : Int)
    (h1 : I1B hm = true)
    (hh : ∀ v ∈ hm.heightMap, 0 ≤ v.height)
    (hout : p < 0 ∨ hm.getTotalHeight ≤ p ∨ hm.heightMap = []) :
    hm.indexAt p = hm.heightMap.length ∧ hm.itemAt p = none := by
  have hidx : hm.indexAt p = hm.heightMap.length := by
    rcases hout with hneg | hhigh | hemp
    · exact indexAtGo_low hm.heightMap p (tops_nonneg _ h1 hh) hneg 0
        hm.heightMap.length
    · rw [getTotalHeight_eq_heightSum hm h1] at hhigh
      exact indexAtGo_high hm.heightMap p h1 hh 0 hm.heightMap.length (le_refl _)
        (by rw [List.take_length]; exact hhigh)
    · unfold HeightMap.indexAt
      rw [hemp]
      rw [indexAtGo, dif_neg (by simp)]
  refine ⟨hidx, ?_⟩
  unfold HeightMap.itemAt
  rw [hidx]
  rw [List.get?_eq_getElem?, List.getElem?_eq_none (le_refl _)]
  rfl

theorem c9_itemAt_out_of_range_witness :
    (I1B hmA = true ∧ (∀ v ∈ hmA.heightMap, 0 ≤ v.height) ∧
      ((61 : Int) < 0 ∨ hmA.getTotalHeight ≤ 61 ∨ hmA.heightMap = []))
    ∧ (hmA.indexAt 61 = hmA.heightMap.length ∧ hmA.itemAt 61 = none) :=
  ⟨⟨by decide, by decide, by decide⟩,
    c9_itemAt_out_of_range hmA 61 (by decide) (by decide) (by decide)⟩

/-- C10: for every state with non-negative offsets and every negative
position `p`, `indexAt(p)` returns the past-end sentinel `n` — the same
value it returns past the end — and `indexAfter(p)` returns `n` too. -/
theorem c10_indexAt_negative (hm : HeightMap) (p : Int)
    (htops : ∀ v ∈ hm.heightMap, 0 ≤ v.top)
    (hp : p < 0) :
    hm.indexAt p = hm.heightMap.length ∧
      hm.indexAfter p = hm.heightMap.length := by
  have hidx : hm.indexAt p = hm.heightMap.length :=
    indexAtGo_low hm.heightMap p htops hp 0 hm.heightMap.length
  refine ⟨hidx, ?_⟩
  unfold HeightMap.indexAfter
  rw [hidx]
  omega

theorem c10_indexAt_negative_witness :
    ((∀ v ∈ hmA.heightMap, 0 ≤ v.top) ∧ (-3 : Int) < 0)
    ∧ (hmA.indexAt (-3) = hmA.heightMap.length ∧
        hmA.indexAfter (-3) = hmA.heightMap.length) :=
  ⟨⟨by decide, by decide⟩, c10_indexAt_negative hmA (-3) (by decide) (by decide)⟩

/-- C5: when `afterItemId` is supplied but absent from the identity index,
`onInsertItems` takes the `ItemNotFound` error path: it returns the
sentinel (`undefined`, modelled as `none`) — so no new state, no trace and
no consumed items exist — and `applyOp` shows the state is bit-for-bit
unchanged. -/
theorem c5_insert_missing_anchor (hm : HeightMap) (items : List Item)
    (aid : String) (habs : List.lookup aid hm.indexes = none) :
    hm.onInsertItems items (some aid) = none ∧
      applyOp hm (Op.insert items (some aid)) = hm := by
  have hres : hm.onInsertItems items (some aid) = none := by
    simp [HeightMap.onInsertItems, insertStart, habs]
  exact ⟨hres, by simp [applyOp, hres]⟩

theorem c5_insert_missing_anchor_witness :
    List.lookup "zz" hmA.indexes = none ∧
      (hmA.onInsertItems [⟨"x", 7⟩] (some "zz") = none ∧
        applyOp hmA (Op.insert [⟨"x", 7⟩] (some "zz")) = hmA) :=
  ⟨by decide, c5_insert_missing_anchor hmA [⟨"x", 7⟩] "zz" (by decide)⟩

/-- C7: refreshing one present item whose height changed from `h` to
`h + d` succeeds, leaves every row before its slot bit-for-bit unchanged,
sets the item's extent to `h + d` at its unchanged offset, and shifts
every later row's offset by exactly `d`. -/
theorem c7_minimal_refresh (hm : HeightMap) (it : Item) (i : Nat)
    (v : ViewItem) (d : Int)
    (h1 : I1B hm = true) (h2 : I2B hm = true)
    (hlook : List.lookup it.id hm.indexes = some i)
    (hvi : hm.heightMap.get? i = some v)
    (hd : it.getHeight = v.height + d) :
    ∃ hm2 tr, hm.onRefreshItems [it] = some (hm2, tr) ∧
      (∀ k, k < i → hm2.heightMap.get? k = hm.heightMap.get? k) ∧
      hm2.heightMap.get? i = some { v with height := v.height + d } ∧
      (∀ k, i < k → hm2.heightMap.get? k =
        (hm.heightMap.get? k).map fun w => { w with top := w.top + d }) := by
  have hi : i < hm.heightMap.length := by
    rcases List.get?_eq_some.mp hvi with ⟨hlt, _⟩
    exact hlt
  have hcatch : (((0 : Int) != 0) && (match (none : Option Nat) with
      | some j0 => decide (j0 < i) | none => false)) = false := rfl
  have hloop : refreshLoop [it] hm.heightMap hm.indexes none 0 =
      some (hm.heightMap.set i { v with top := v.top + 0, height := it.getHeight },
        some (i + 1), 0 + (it.getHeight - v.height),
        [Notif.refreshed v.model.id true]) := by
    simp only [refreshLoop, hlook, hcatch, Bool.false_eq_true, if_false, hvi]
    rfl
  have hset : hm.heightMap.set i { v with top := v.top + 0, height := it.getHeight }
      = hm.heightMap.set i { v with top := v.top, height := v.height + d } := by
    rw [hd]
    norm_num
  have hget_set_lt : ∀ k, k < i →
      (hm.heightMap.set i { v with top := v.top, height := v.height + d }).get? k
        = hm.heightMap.get? k := by
    intro k hk
    rw [List.get?_eq_getElem?, List.get?_eq_getElem?, List.getElem?_set]
    rw [if_neg (by omega)]
  have hget_set_eq :
      (hm.heightMap.set i { v with top := v.top, height := v.height + d }).get? i
        = some { v with top := v.top, height := v.height + d } := by
    rw [List.get?_eq_getElem?, List.getElem?_set]
    rw [if_pos rfl, if_pos hi]
  have hget_set_gt : ∀ k, i < k →
      (hm.heightMap.set i { v with top := v.top, height := v.height + d }).get? k
        = hm.heightMap.get? k := by
    intro k hk
    rw [List.get?_eq_getElem?, List.get?_eq_getElem?, List.getElem?_set]
    rw [if_neg (by omega)]
  by_cases hdz : d = 0
  · refine ⟨⟨hm.heightMap.set i { v with top := v.top, height := v.height + d },
      hm.indexes⟩, [Notif.refreshed v.model.id true], ?_, ?_, ?_, ?_⟩
    · simp only [HeightMap.onRefreshItems, hloop, hset]
      rw [if_neg (by simp [hd, hdz])]
    · intro k hk
      exact hget_set_lt k hk
    · exact hget_set_eq
    · intro k hk
      rw [hget_set_gt k hk, hdz]
      cases hw : hm.heightMap.get? k with
      | none => rfl
      | some w => simp
  · have hlen_take : (List.take (i + 1)
        (hm.heightMap.set i { v with top := v.top, height := v.height + d })).length
        = i + 1 := by
      simp [List.length_take, List.length_set]
      omega
    refine ⟨⟨List.take (i + 1)
        (hm.heightMap.set i { v with top := v.top, height := v.height + d })
        ++ (List.drop (i + 1)
          (hm.heightMap.set i { v with top := v.top, height := v.height + d })).map
            (fun w => { w with top := w.top + (0 + (it.getHeight - v.height)) }),
      hm.indexes⟩,
      [Notif.refreshed v.model.id true]
        ++ ((List.drop (i + 1)
            (hm.heightMap.set i { v with top := v.top, height := v.height + d })).map
              (fun w => { w with top := w.top + (0 + (it.getHeight - v.height)) })).map
          (fun w => Notif.refreshed w.model.id false), ?_, ?_, ?_, ?_⟩
    · simp only [HeightMap.onRefreshItems, hloop, hset]
      rw [if_pos (by simp [hd]; exact hdz)]
    · intro k hk
      rw [List.get?_eq_getElem?, List.getElem?_append, if_pos (by omega)]
      rw [List.getElem?_take, if_pos (by omega)]
      rw [← List.get?_eq_getElem?]
      exact hget_set_lt k hk
    · rw [List.get?_eq_getElem?, List.getElem?_append, if_pos (by omega)]
      rw [List.getElem?_take, if_pos (by omega)]
      rw [← List.get?_eq_getElem?]
      exact hget_set_eq
    · intro k hk
      rw [List.get?_eq_getElem?, List.getElem?_append, if_neg (by omega)]
      rw [hlen_take, List.getElem?_map, List.getElem?_drop]
      rw [show i + 1 + (k - (i + 1)) = k by omega]
      have := hget_set_gt k hk
      rw [List.get?_eq_getElem?, List.get?_eq_getElem?] at this
      rw [this, List.get?_eq_getElem?]
      cases hw : hm.heightMap[k]? with
      | none => rfl
      | some w =>
        simp only [Option.map_some']
        congr 1
        simp only [ViewItem.mk.injEq]
        refine ⟨trivial, ?_, trivial⟩
        rw [hd]
        ring


theorem c7_minimal_refresh_witness :
    List.lookup "b" hmA.indexes = some 1 ∧
    (∃ hm2 tr, hmA.onRefreshItems [⟨"b", 5⟩] = some (hm2, tr) ∧
      (∀ k, k < 1 → hm2.heightMap.get? k = hmA.heightMap.get? k) ∧
      hm2.heightMap.get? 1 =
        some { (⟨⟨"b", 20⟩, 10, 20⟩ : ViewItem) with height := 20 + (-15) } ∧
      (∀ k, 1 < k → hm2.heightMap.get? k =
        (hmA.heightMap.get? k).map fun w => { w with top := w.top + (-15) })) :=
  ⟨by decide,
    c7_minimal_refresh hmA ⟨"b", 5⟩ 1 ⟨⟨"b", 20⟩, 10, 20⟩ (-15)
      (by decide) (by decide) (by decide) (by decide) (by decide)⟩

/-- The prefix of a remove input that the scan processes successfully:
non-empty identities that resolve (in the progressively-deleted index) to
in-bounds slots. -/
def removeOkB (rows : List ViewItem) : List String → List (String × Nat) → Bool
  | [], _ => true
  | id :: rest, idx =>
    !(id == "") &&
      (match List.lookup id idx with
       | none => false
       | some i => decide (i < rows.length) && removeOkB rows rest (delIdx idx id))

theorem removeScan_abort (done : List String) (bad : String) (rest : List String)
    (rows : List ViewItem) (idx : List (String × Nat)) (sd : Int)
    (si : Option Nat) (li : Nat)
    (hok : removeOkB rows done idx = true)
    (hbad : ¬ bad = "")
    (habs : List.lookup bad (delAll idx done) = none) :
    ∃ sd2 si2 li2, removeScan (done ++ bad :: rest) rows idx sd si li =
      ⟨false, delAll idx done, sd2, si2, li2, done.map Notif.removeHook⟩ := by
  induction done generalizing idx sd si li with
  | nil =>
    refine ⟨sd, si, li, ?_⟩
    simp only [List.nil_append, removeScan, if_neg hbad]
    rw [show delAll idx [] = idx from rfl] at habs
    rw [habs]
    rfl
  | cons id done' ih =>
    simp only [removeOkB, Bool.and_eq_true, Bool.not_eq_true', beq_iff_eq] at hok
    obtain ⟨hne, hok2⟩ := hok
    have hne' : ¬ id = "" := beq_eq_false_iff_ne.mp (by simpa using hne)
    cases hl : List.lookup id idx with
    | none => rw [hl] at hok2; simp at hok2
    | some i =>
      rw [hl] at hok2
      simp only [Bool.and_eq_true, decide_eq_true_eq] at hok2
      obtain ⟨hilen, hok3⟩ := hok2
      have hvex : ∃ v, rows.get? i = some v := by
        rw [List.get?_eq_getElem?]
        exact ⟨rows[i], List.getElem?_eq_getElem hilen⟩
      obtain ⟨vi, hvi⟩ := hvex
      have habs' : List.lookup bad (delAll (delIdx idx id) done') = none := by
        rw [show delAll idx (id :: done') = delAll (delIdx idx id) done' from rfl] at habs
        exact habs
      obtain ⟨sd2, si2, li2, hrec⟩ := ih (delIdx idx id) (sd - vi.height)
        (some (si.getD i)) i hok3 habs'
      refine ⟨sd2, si2, li2, ?_⟩
      simp only [List.cons_append, removeScan, if_neg hne', hl, hvi, List.append_eq,
        hrec]
      rfl

theorem lookup_delAll_none (l : List String) (idx : List (String × Nat))
    (id : String) (h : List.lookup id idx = none) :
    List.lookup id (delAll idx l) = none := by
  induction l generalizing idx with
  | nil => exact h
  | cons e es ih =>
    rw [show delAll idx (e :: es) = delAll (delIdx idx e) es from rfl]
    refine ih (delIdx idx e) ?_
    by_cases he : id = e
    · subst he
      exact lookup_delIdx_self idx id
    · rw [lookup_delIdx_ne idx e id he]
      exact h

theorem lookup_delAll_mem (done : List String) (idx : List (String × Nat))
    (id : String) (hmem : id ∈ done) :
    List.lookup id (delAll idx done) = none := by
  induction done generalizing idx with
  | nil => simp at hmem
  | cons d done' ih =>
    rw [show delAll idx (d :: done') = delAll (delIdx idx d) done' from rfl]
    by_cases he : id = d
    · subst he
      exact lookup_delAll_none done' (delIdx idx id) id (lookup_delIdx_self idx id)
    · exact ih (delIdx idx d) (by
        rcases List.mem_cons.mp hmem with heq | hmem'
        · exact absurd heq he
        · exact hmem')

/-- C6: when the remove scan hits, at input position `k`, an identity
absent from the (progressively-deleted) index, the operation aborts: the
first `k` identities have been deleted from the index and have received
their "row removed" notifications, but the row array has not been spliced
— every row keeps its offset and extent — so position queries still
reflect the pre-call geometry. -/
theorem c6_remove_abort_window (hm : HeightMap) (done : List String)
    (bad : String) (rest : List String)
    (hok : removeOkB hm.heightMap done hm.indexes = true)
    (hbad : ¬ bad = "")
    (habs : List.lookup bad (delAll hm.indexes done) = none) :
    (hm.onRemoveItems (done ++ bad :: rest)).1.heightMap = hm.heightMap ∧
      (hm.onRemoveItems (done ++ bad :: rest)).1.indexes = delAll hm.indexes done ∧
      (∀ id ∈ done,
        List.lookup id (hm.onRemoveItems (done ++ bad :: rest)).1.indexes = none) ∧
      (hm.onRemoveItems (done ++ bad :: rest)).2 = done.map Notif.removeHook ∧
      (∀ p, (hm.onRemoveItems (done ++ bad :: rest)).1.indexAt p = hm.indexAt p) := by
  obtain ⟨sd2, si2, li2, hchar⟩ :=
    removeScan_abort done bad rest hm.heightMap hm.indexes 0 none 0 hok hbad habs
  have hres : hm.onRemoveItems (done ++ bad :: rest) =
      (⟨hm.heightMap, delAll hm.indexes done⟩, done.map Notif.removeHook) := by
    unfold HeightMap.onRemoveItems
    simp [hchar]
  rw [hres]
  refine ⟨rfl, rfl, ?_, rfl, fun p => rfl⟩
  intro id hmem
  exact lookup_delAll_mem done hm.indexes id hmem

theorem c6_remove_abort_window_witness :
    (removeOkB hmA.heightMap ["a"] hmA.indexes = true ∧ ¬ "zz" = "" ∧
      List.lookup "zz" (delAll hmA.indexes ["a"]) = none)
    ∧ ((hmA.onRemoveItems (["a"] ++ "zz" :: ["b"])).1.heightMap = hmA.heightMap ∧
      (hmA.onRemoveItems (["a"] ++ "zz" :: ["b"])).1.indexes = delAll hmA.indexes ["a"] ∧
      (∀ id ∈ ["a"],
        List.lookup id (hmA.onRemoveItems (["a"] ++ "zz" :: ["b"])).1.indexes = none) ∧
      (hmA.onRemoveItems (["a"] ++ "zz" :: ["b"])).2 = ["a"].map Notif.removeHook ∧
      (∀ p, (hmA.onRemoveItems (["a"] ++ "zz" :: ["b"])).1.indexAt p = hmA.indexAt p)) :=
  ⟨⟨by decide, by decide, by decide⟩,
    c6_remove_abort_window hmA ["a"] "zz" ["b"] (by decide) (by decide) (by decide)⟩

/-! ## Insert notification ordering -/

/-- Whether a notification is the (no-op) `onInsertItem` hook. -/
def isHookB : Notif → Bool
  | Notif.insertHook _ => true
  | _ => false

/-- Two-row sample state. -/
def hmB : HeightMap :=
  ⟨[⟨⟨"r1", 1⟩, 0, 1⟩, ⟨⟨"r2", 1⟩, 1, 1⟩], [("r1", 0), ("r2", 1)]⟩

/-- C8 as stated is false: inserting one item at the front of a two-row
map emits the `refreshed` notifications for the shifted pre-existing rows
in descending slot order (`r2` before `r1`), not ascending; the trace
(hook events aside) is not "creates then refresheds in ascending slot
order from the insertion point to the end". -/
theorem c8_counterexample :
    ((hmB.onInsertItems [⟨"x", 7⟩] none).map
      fun r => r.2.2.filter fun n => !(isHookB n)) ≠
    some ((([⟨"x", 7⟩] : List Item).map fun it => Notif.create it.id)
      ++ hmB.heightMap.map fun v => Notif.refreshed v.model.id false) := by
  decide

/-- C8 amended: for every successful insert, the trace is the `create`
events in input order (emitted during the scan), then the `onInsertItem`
hooks in reverse input order, then one `refreshed` notification per
shifted pre-existing row in descending slot order, from the end of the
sequence down to the insertion point. -/
theorem c8_insert_notification_order (hm : HeightMap) (items : List Item)
    (aft : Option String) (hm2 : HeightMap) (sd : Int) (tr : List Notif)
    (i0 : Nat) (b : Int)
    (hstart : insertStart hm aft = some (i0, b))
    (hres : hm.onInsertItems items aft = some (hm2, sd, tr)) :
    tr = (items.map fun it => Notif.create it.id)
      ++ ((items.map fun it => Notif.insertHook it.id).reverse)
      ++ ((hm.heightMap.drop i0).map fun v =>
            Notif.refreshed v.model.id false).reverse := by
  unfold HeightMap.onInsertItems at hres
  rw [hstart] at hres
  simp only [Option.some.injEq, Prod.mk.injEq] at hres
  obtain ⟨_, _, htr⟩ := hres
  rw [← htr]
  have hmodels := insertScan_models items i0 b 0 hm.indexes
  have hA := insertScan_trace items i0 b 0 hm.indexes
  have hmm : List.map (fun v => Notif.insertHook v.model.id)
      (insertScan items i0 b 0 hm.indexes).1
      = items.map fun it => Notif.insertHook it.id := by
    conv_rhs => rw [← hmodels]
    rw [List.map_map]
    rfl
  have hrr : List.map (fun v => Notif.refreshed v.model.id false)
      (shiftReindex (hm.heightMap.drop i0) (i0 + items.length)
        (insertScan items i0 b 0 hm.indexes).2.1
        (insertScan items i0 b 0 hm.indexes).2.2.1).1
      = (hm.heightMap.drop i0).map fun v => Notif.refreshed v.model.id false := by
    rw [shiftReindex_rows, List.map_map]
    rfl
  rw [hA, List.map_reverse, hmm, List.map_reverse, hrr]

theorem c8_insert_notification_order_witness :
    insertStart hmB none = some (0, 0) ∧
      hmB.onInsertItems [⟨"x", 7⟩] none =
        some (⟨[⟨⟨"x", 7⟩, 0, 7⟩, ⟨⟨"r1", 1⟩, 7, 1⟩, ⟨⟨"r2", 1⟩, 8, 1⟩],
          [("r1", 1), ("r2", 2), ("x", 0)]⟩, 7,
          [Notif.create "x", Notif.insertHook "x",
            Notif.refreshed "r2" false, Notif.refreshed "r1" false]) ∧
      [Notif.create "x", Notif.insertHook "x",
        Notif.refreshed "r2" false, Notif.refreshed "r1" false] =
      (([⟨"x", 7⟩] : List Item).map fun it => Notif.create it.id)
        ++ ((([⟨"x", 7⟩] : List Item).map
              fun it => Notif.insertHook it.id).reverse)
        ++ ((hmB.heightMap.drop 0).map fun v =>
              Notif.refreshed v.model.id false).reverse :=
  ⟨by decide, by decide,
    c8_insert_notification_order hmB [⟨"x", 7⟩] none
      ⟨[⟨⟨"x", 7⟩, 0, 7⟩, ⟨⟨"r1", 1⟩, 7, 1⟩, ⟨⟨"r2", 1⟩, 8, 1⟩],
        [("r1", 1), ("r2", 2), ("x", 0)]⟩ 7
      [Notif.create "x", Notif.insertHook "x",
        Notif.refreshed "r2" false, Notif.refreshed "r1" false]
      0 0 (by decide) (by decide)⟩

/-! ## Index membership and lookup characterizations -/

theorem lookup_key_mem (idx : List (String × Nat)) (id : String) (t : Nat)
    (h : List.lookup id idx = some t) : id ∈ idx.map Prod.fst := by
  induction idx with
  | nil => simp [List.lookup] at h
  | cons p rest ih =>
    obtain ⟨a, b⟩ := p
    rw [List.lookup_cons] at h
    cases hb : (id == a) with
    | true =>
      have : id = a := beq_iff_eq.mp hb
      simp [this]
    | false =>
      rw [hb] at h
      simp only [List.map_cons]
      exact List.mem_cons_of_mem a (ih h)

theorem mem_keys_setIdx (idx : List (String × Nat)) (k : String) (v : Nat)
    (p : String × Nat) (hp : p ∈ setIdx idx k v) :
    p.1 = k ∨ p.1 ∈ idx.map Prod.fst := by
  unfold setIdx at hp
  split at hp
  · rcases List.mem_map.mp hp with ⟨q, hq, heq⟩
    by_cases hqk : q.1 = k
    · rw [if_pos hqk] at heq
      left
      rw [← heq]
    · rw [if_neg hqk] at heq
      right
      rw [← heq]
      exact List.mem_map_of_mem Prod.fst hq
  · rcases List.mem_append.mp hp with hq | hq
    · right
      exact List.mem_map_of_mem Prod.fst hq
    · left
      simp at hq
      simp [hq]

theorem mem_keys_insertScan (items : List Item) (i : Nat) (b sd : Int)
    (idx : List (String × Nat)) (p : String × Nat)
    (hp : p ∈ (insertScan items i b sd idx).2.2.1) :
    p.1 ∈ items.map Item.id ∨ p.1 ∈ idx.map Prod.fst := by
  induction items generalizing i sd idx with
  | nil => right; exact List.mem_map_of_mem Prod.fst hp
  | cons it rest ih =>
    simp only [insertScan] at hp
    rcases ih (i + 1) (sd + (createViewItem it).height) (setIdx idx it.id i) hp with
      hin | hin
    · left
      simp only [List.map_cons]
      exact List.mem_cons_of_mem _ hin
    · rcases List.mem_map.mp hin with ⟨q, hq, heq⟩
      rcases mem_keys_setIdx idx it.id i q hq with h1 | h1
      · left
        simp [← heq, h1]
      · right
        rw [← heq]
        exact h1

theorem mem_keys_shiftReindex (rows : List ViewItem) (j : Nat) (d : Int)
    (idx : List (String × Nat)) (p : String × Nat)
    (hp : p ∈ (shiftReindex rows j d idx).2) :
    p.1 ∈ idsOf rows ∨ p.1 ∈ idx.map Prod.fst := by
  induction rows generalizing j idx with
  | nil => right; exact List.mem_map_of_mem Prod.fst hp
  | cons r rest ih =>
    simp only [shiftReindex] at hp
    rcases ih (j + 1) (setIdx idx r.model.id j) hp with hin | hin
    · left
      simp only [idsOf, List.map_cons]
      exact List.mem_cons_of_mem _ hin
    · rcases List.mem_map.mp hin with ⟨q, hq, heq⟩
      rcases mem_keys_setIdx idx r.model.id j q hq with h1 | h1
      · left
        simp [idsOf, ← heq, h1]
      · right
        rw [← heq]
        exact h1

theorem mem_delIdx (idx : List (String × Nat)) (k : String) (p : String × Nat)
    (hp : p ∈ delIdx idx k) : p ∈ idx ∧ p.1 ≠ k := by
  unfold delIdx at hp
  have h1 := List.mem_of_mem_filter hp
  have h2 := List.of_mem_filter hp
  simp at h2
  exact ⟨h1, h2⟩

theorem mem_delAll (idx : List (String × Nat)) (l : List String)
    (p : String × Nat) (hp : p ∈ delAll idx l) : p ∈ idx ∧ p.1 ∉ l := by
  induction l generalizing idx with
  | nil => exact ⟨hp, by simp⟩
  | cons k ks ih =>
    rw [show delAll idx (k :: ks) = delAll (delIdx idx k) ks from rfl] at hp
    obtain ⟨hin, hnot⟩ := ih (delIdx idx k) hp
    obtain ⟨hin2, hne⟩ := mem_delIdx idx k p hin
    refine ⟨hin2, ?_⟩
    simp only [List.mem_cons, not_or]
    exact ⟨hne, hnot⟩

theorem lookup_delAll_not_mem (l : List String) (idx : List (String × Nat))
    (id : String) (h : id ∉ l) :
    List.lookup id (delAll idx l) = List.lookup id idx := by
  induction l generalizing idx with
  | nil => rfl
  | cons k ks ih =>
    rw [show delAll idx (k :: ks) = delAll (delIdx idx k) ks from rfl]
    have hne : id ≠ k := fun he => h (he ▸ List.mem_cons_self k ks)
    rw [ih (delIdx idx k) (fun hin => h (List.mem_cons_of_mem k hin))]
    exact lookup_delIdx_ne idx k id hne

theorem insertScan_lookup_not_mem (items : List Item) (i : Nat) (b sd : Int)
    (idx : List (String × Nat)) (id : String) (h : id ∉ items.map Item.id) :
    List.lookup id (insertScan items i b sd idx).2.2.1 = List.lookup id idx := by
  induction items generalizing i sd idx with
  | nil => rfl
  | cons it rest ih =>
    simp only [List.map_cons, List.mem_cons, not_or] at h
    simp only [insertScan]
    rw [ih (i + 1) _ (setIdx idx it.id i) h.2]
    exact lookup_setIdx_ne idx it.id id i h.1

theorem insertScan_lookup_mem (items : List Item) (i : Nat) (b sd : Int)
    (idx : List (String × Nat)) (m : Nat) (it : Item)
    (hd : (items.map Item.id).Nodup) (hm : items.get? m = some it) :
    List.lookup it.id (insertScan items i b sd idx).2.2.1 = some (i + m) := by
  induction items generalizing i sd idx m with
  | nil => simp at hm
  | cons it0 rest ih =>
    simp only [List.map_cons, List.nodup_cons] at hd
    cases m with
    | zero =>
      simp only [List.get?] at hm
      cases hm
      simp only [insertScan]
      rw [insertScan_lookup_not_mem rest (i + 1) b _ (setIdx idx it.id i) it.id hd.1]
      rw [lookup_setIdx_self]
      rfl
    | succ m' =>
      simp only [List.get?] at hm
      simp only [insertScan]
      rw [ih (i + 1) _ (setIdx idx it0.id i) m' hd.2 hm]
      congr 1
      omega

theorem shiftReindex_lookup_not_mem (rows : List ViewItem) (j : Nat) (d : Int)
    (idx : List (String × Nat)) (id : String) (h : id ∉ idsOf rows) :
    List.lookup id (shiftReindex rows j d idx).2 = List.lookup id idx := by
  induction rows generalizing j idx with
  | nil => rfl
  | cons r rest ih =>
    simp only [idsOf, List.map_cons, List.mem_cons, not_or] at h
    simp only [shiftReindex]
    rw [ih (j + 1) (setIdx idx r.model.id j) h.2]
    exact lookup_setIdx_ne idx r.model.id id j h.1

theorem shiftReindex_lookup_mem (rows : List ViewItem) (j : Nat) (d : Int)
    (idx : List (String × Nat)) (m : Nat) (v : ViewItem)
    (hd : (idsOf rows).Nodup) (hm : rows.get? m = some v) :
    List.lookup v.model.id (shiftReindex rows j d idx).2 = some (j + m) := by
  induction rows generalizing j idx m with
  | nil => simp at hm
  | cons r rest ih =>
    simp only [idsOf, List.map_cons, List.nodup_cons] at hd
    cases m with
    | zero =>
      simp only [List.get?] at hm
      cases hm
      simp only [shiftReindex]
      rw [shiftReindex_lookup_not_mem rest (j + 1) d (setIdx idx v.model.id j)
        v.model.id hd.1]
      rw [lookup_setIdx_self]
      rfl
    | succ m' =>
      simp only [List.get?] at hm
      simp only [shiftReindex]
      rw [ih (j + 1) (setIdx idx r.model.id j) m' hd.2 hm]
      congr 1
      omega

theorem slotsOK_iff (rows : List ViewItem) (idx : List (String × Nat)) :
    slotsOK rows idx = true ↔
      ∀ k v, rows.get? k = some v → List.lookup v.model.id idx = some k := by
  unfold slotsOK
  rw [List.all_eq_true]
  constructor
  · intro h k v hkv
    have hk : k < rows.length := by
      rcases List.get?_eq_some.mp hkv with ⟨hlt, _⟩
      exact hlt
    have h2 := h k (List.mem_range.mpr hk)
    rw [hkv] at h2
    exact beq_iff_eq.mp h2
  · intro h k hk
    have hk2 : k < rows.length := List.mem_range.mp hk
    cases hv : rows.get? k with
    | none =>
      rw [List.get?_eq_getElem?] at hv
      rw [List.getElem?_eq_getElem hk2] at hv
      exact absurd hv (by simp)
    | some v =>
      simp only [hv]
      exact beq_iff_eq.mpr (h k v hv)

theorem entriesOK_iff (rows : List ViewItem) (idx : List (String × Nat)) :
    entriesOK rows idx = true ↔ ∀ p ∈ idx, p.1 ∈ idsOf rows := by
  unfold entriesOK
  rw [List.all_eq_true]
  constructor
  · intro h p hp
    exact List.mem_of_elem_eq_true (h p hp)
  · intro h p hp
    exact List.elem_eq_true_of_mem (h p hp)

/-- A successful lookup under I2 finds a real row with that identity. -/
theorem lookup_row (rows : List ViewItem) (idx : List (String × Nat))
    (hs : slotsOK rows idx = true) (he : entriesOK rows idx = true)
    (id : String) (t : Nat) (h : List.lookup id idx = some t) :
    ∃ v, rows.get? t = some v ∧ v.model.id = id := by
  have hkey := lookup_key_mem idx id t h
  rcases List.mem_map.mp hkey with ⟨p, hp, hpk⟩
  have hid : id ∈ idsOf rows := by
    rw [← hpk]
    exact (entriesOK_iff rows idx).mp he p hp
  rcases List.mem_map.mp hid with ⟨v, hv, hvk⟩
  rcases List.mem_iff_getElem?.mp hv with ⟨t2, ht2⟩
  have hl2 : List.lookup id idx = some t2 := by
    rw [← hvk]
    exact (slotsOK_iff rows idx).mp hs t2 v (by rw [List.get?_eq_getElem?]; exact ht2)
  rw [h] at hl2
  refine ⟨v, ?_, hvk⟩
  rw [List.get?_eq_getElem?]
  rw [Option.some.inj hl2]
  exact ht2

theorem get?_append3_lt {α : Type} (A B C : List α) (k : Nat) (h : k < A.length) :
    ((A ++ B) ++ C).get? k = A.get? k := by
  rw [List.get?_eq_getElem?, List.get?_eq_getElem?, List.getElem?_append,
    if_pos (by simp [List.length_append]; omega), List.getElem?_append, if_pos h]

theorem get?_append3_mid {α : Type} (A B C : List α) (k : Nat)
    (h1 : A.length ≤ k) (h2 : k < A.length + B.length) :
    ((A ++ B) ++ C).get? k = B.get? (k - A.length) := by
  rw [List.get?_eq_getElem?, List.get?_eq_getElem?, List.getElem?_append,
    if_pos (by simp [List.length_append]; omega), List.getElem?_append,
    if_neg (by omega)]

theorem get?_append3_hi {α : Type} (A B C : List α) (k : Nat)
    (h : A.length + B.length ≤ k) :
    ((A ++ B) ++ C).get? k = C.get? (k - A.length - B.length) := by
  rw [List.get?_eq_getElem?, List.get?_eq_getElem?, List.getElem?_append,
    if_neg (by simp [List.length_append]; omega)]
  congr 1
  simp [List.length_append]
  omega

theorem insertStart_le (hm : HeightMap) (aft : Option String) (i0 : Nat) (b : Int)
    (h : insertStart hm aft = some (i0, b)) : i0 ≤ hm.heightMap.length := by
  cases aft with
  | none =>
    simp only [insertStart, Option.some.injEq, Prod.mk.injEq] at h
    omega
  | some a =>
    simp only [insertStart] at h
    split at h
    · exact absurd h (by simp)
    · split at h
      · exact absurd h (by simp)
      · rename_i o1 k hl vi hg
        simp only [Option.some.injEq, Prod.mk.injEq] at h
        rcases List.get?_eq_some.mp hg with ⟨hlt, _⟩
        omega

theorem insertScan_ids (items : List Item) (i : Nat) (b sd : Int)
    (idx : List (String × Nat)) :
    idsOf (insertScan items i b sd idx).1 = items.map Item.id := by
  unfold idsOf
  conv_rhs => rw [← insertScan_models items i b sd idx]
  rw [List.map_map]
  rfl

/-- A valid fresh insert succeeds and preserves index consistency and
identity distinctness. -/
theorem I2B_insert_preserved (hm : HeightMap) (items : List Item)
    (aft : Option String) (i0 : Nat) (b : Int)
    (h2 : I2B hm = true) (hnd : nodupIdsB hm = true)
    (hfresh : freshItemsB hm items = true)
    (hstart : insertStart hm aft = some (i0, b)) :
    ∃ hm2 sd tr, hm.onInsertItems items aft = some (hm2, sd, tr) ∧
      I2B hm2 = true ∧ nodupIdsB hm2 = true := by
  have hle := insertStart_le hm aft i0 b hstart
  have hslots : slotsOK hm.heightMap hm.indexes = true := by
    unfold I2B at h2
    exact ((Bool.and_eq_true _ _).mp h2).1
  have hentries : entriesOK hm.heightMap hm.indexes = true := by
    unfold I2B at h2
    exact ((Bool.and_eq_true _ _).mp h2).2
  have hndrows : (idsOf hm.heightMap).Nodup := by
    unfold nodupIdsB at hnd
    exact of_decide_eq_true hnd
  have hnditems : (items.map Item.id).Nodup := by
    unfold freshItemsB at hfresh
    exact of_decide_eq_true ((Bool.and_eq_true _ _).mp hfresh).1
  have hfresh2 : ∀ it ∈ items, List.lookup it.id hm.indexes = none := by
    intro it hit
    unfold freshItemsB at hfresh
    have := List.all_eq_true.mp ((Bool.and_eq_true _ _).mp hfresh).2 it hit
    exact Option.isNone_iff_eq_none.mp this
  have hdisj : ∀ id, id ∈ items.map Item.id → id ∉ idsOf hm.heightMap := by
    intro id hid hrow
    rcases List.mem_map.mp hid with ⟨it, hit, hitid⟩
    rcases List.mem_map.mp hrow with ⟨v, hv, hvid⟩
    rcases List.mem_iff_getElem?.mp hv with ⟨tt, htt⟩
    have hsome := (slotsOK_iff _ _).mp hslots tt v
      (by rw [List.get?_eq_getElem?]; exact htt)
    rw [hvid] at hsome
    have hn := hfresh2 it hit
    rw [hitid] at hn
    rw [hsome] at hn
    exact absurd hn (by simp)
  have hsplitids : idsOf hm.heightMap =
      idsOf (hm.heightMap.take i0) ++ idsOf (hm.heightMap.drop i0) := by
    rw [← idsOf_append, List.take_append_drop]
  have hndpre : (idsOf (hm.heightMap.take i0)).Nodup := by
    rw [hsplitids] at hndrows
    exact (List.nodup_append.mp hndrows).1
  have hndsuf : (idsOf (hm.heightMap.drop i0)).Nodup := by
    rw [hsplitids] at hndrows
    exact (List.nodup_append.mp hndrows).2.1
  have hdisjps : ∀ id ∈ idsOf (hm.heightMap.take i0),
      id ∉ idsOf (hm.heightMap.drop i0) := by
    rw [hsplitids] at hndrows
    exact fun id h => (List.nodup_append.mp hndrows).2.2 h
  have hsufsub : ∀ id ∈ idsOf (hm.heightMap.drop i0), id ∈ idsOf hm.heightMap := by
    intro id h
    rw [hsplitids]
    exact List.mem_append_right _ h
  have hpresub : ∀ id ∈ idsOf (hm.heightMap.take i0), id ∈ idsOf hm.heightMap := by
    intro id h
    rw [hsplitids]
    exact List.mem_append_left _ h
  have hlpre : (hm.heightMap.take i0).length = i0 := by
    simp [List.length_take]
    omega
  have hlnew : (insertScan items i0 b 0 hm.indexes).1.length = items.length :=
    insertScan_length items i0 b 0 hm.indexes
  refine ⟨⟨hm.heightMap.take i0 ++ (insertScan items i0 b 0 hm.indexes).1
      ++ (shiftReindex (hm.heightMap.drop i0) (i0 + items.length)
        (insertScan items i0 b 0 hm.indexes).2.1
        (insertScan items i0 b 0 hm.indexes).2.2.1).1,
      (shiftReindex (hm.heightMap.drop i0) (i0 + items.length)
        (insertScan items i0 b 0 hm.indexes).2.1
        (insertScan items i0 b 0 hm.indexes).2.2.1).2⟩,
    (insertScan items i0 b 0 hm.indexes).2.1,
    (insertScan items i0 b 0 hm.indexes).2.2.2
      ++ ((insertScan items i0 b 0 hm.indexes).1.reverse.map
          fun v => Notif.insertHook v.model.id)
      ++ ((shiftReindex (hm.heightMap.drop i0) (i0 + items.length)
          (insertScan items i0 b 0 hm.indexes).2.1
          (insertScan items i0 b 0 hm.indexes).2.2.1).1.reverse.map
          fun v => Notif.refreshed v.model.id false), ?_, ?_, ?_⟩
  · unfold HeightMap.onInsertItems
    rw [hstart]
  · unfold I2B
    rw [Bool.and_eq_true]
    constructor
    · rw [slotsOK_iff]
      intro k v hkv
      simp only []
      rcases Nat.lt_or_ge k i0 with hk1 | hk1
      · rw [get?_append3_lt _ _ _ k (by rw [hlpre]; exact hk1)] at hkv
        have hkrow : hm.heightMap.get? k = some v := by
          rw [List.get?_eq_getElem?] at hkv ⊢
          rw [List.getElem?_take, if_pos hk1] at hkv
          exact hkv
        have hvmem : v.model.id ∈ idsOf (hm.heightMap.take i0) := by
          have : v ∈ hm.heightMap.take i0 := by
            rw [List.get?_eq_getElem?] at hkv
            exact List.getElem?_mem hkv
          exact List.mem_map_of_mem _ this
        rw [shiftReindex_lookup_not_mem _ _ _ _ _ (hdisjps _ hvmem)]
        rw [insertScan_lookup_not_mem _ _ _ _ _ _
          (fun hin => hdisj _ hin (hpresub _ hvmem))]
        exact (slotsOK_iff _ _).mp hslots k v hkrow
      · rcases Nat.lt_or_ge k (i0 + items.length) with hk2 | hk2
        · rw [get?_append3_mid _ _ _ k (by rw [hlpre]; exact hk1)
            (by rw [hlpre, hlnew]; exact hk2)] at hkv
          rw [hlpre] at hkv
          have hitem : items.get? (k - i0) = some v.model := by
            have := insertScan_models items i0 b 0 hm.indexes
            rw [List.get?_eq_getElem?] at hkv
            rw [← this, List.get?_eq_getElem?, List.getElem?_map, hkv]
            rfl
          have hvitems : v.model.id ∈ items.map Item.id := by
            rw [List.get?_eq_getElem?] at hitem
            exact List.mem_map_of_mem _ (List.getElem?_mem hitem)
          rw [shiftReindex_lookup_not_mem _ _ _ _ _
            (fun hin => hdisj _ hvitems (hsufsub _ hin))]
          have := insertScan_lookup_mem items i0 b 0 hm.indexes (k - i0) v.model
            hnditems hitem
          rw [this]
          congr 1
          omega
        · rw [get?_append3_hi _ _ _ k (by rw [hlpre, hlnew]; exact hk2)] at hkv
          rw [hlpre, hlnew] at hkv
          rw [shiftReindex_rows] at hkv
          rw [List.get?_eq_getElem?, List.getElem?_map] at hkv
          cases hw : (hm.heightMap.drop i0)[k - i0 - items.length]? with
          | none => rw [hw] at hkv; exact absurd hkv (by simp)
          | some w =>
            rw [hw] at hkv
            simp only [Option.map_some', Option.some.injEq] at hkv
            have hvw : v.model.id = w.model.id := by rw [← hkv]
            rw [hvw]
            have := shiftReindex_lookup_mem (hm.heightMap.drop i0)
              (i0 + items.length) (insertScan items i0 b 0 hm.indexes).2.1
              (insertScan items i0 b 0 hm.indexes).2.2.1 (k - i0 - items.length) w
              hndsuf (by rw [List.get?_eq_getElem?]; exact hw)
            rw [this]
            congr 1
            omega
    · rw [entriesOK_iff]
      intro p hp
      have hids2 : idsOf (hm.heightMap.take i0
          ++ (insertScan items i0 b 0 hm.indexes).1
          ++ (shiftReindex (hm.heightMap.drop i0) (i0 + items.length)
            (insertScan items i0 b 0 hm.indexes).2.1
            (insertScan items i0 b 0 hm.indexes).2.2.1).1) =
          idsOf (hm.heightMap.take i0) ++ items.map Item.id
            ++ idsOf (hm.heightMap.drop i0) := by
        rw [idsOf_append, idsOf_append, insertScan_ids, shiftReindex_rows,
          idsOf_map_shift]
      rw [hids2]
      rcases mem_keys_shiftReindex _ _ _ _ p hp with hin | hin
      · exact List.mem_append_right _ hin
      · rcases List.mem_map.mp hin with ⟨q, hq, hqk⟩
        rcases mem_keys_insertScan items i0 b 0 hm.indexes q hq with h3 | h3
        · rw [← hqk]
          exact List.mem_append_left _ (List.mem_append_right _ h3)
        · rcases List.mem_map.mp h3 with ⟨q2, hq2, hq2k⟩
          have hmem2 := (entriesOK_iff _ _).mp hentries q2 hq2
          rw [hq2k, hqk] at hmem2
          rw [hsplitids] at hmem2
          rcases List.mem_append.mp hmem2 with h4 | h4
          · exact List.mem_append_left _ (List.mem_append_left _ h4)
          · exact List.mem_append_right _ h4
  · unfold nodupIdsB
    rw [decide_eq_true_iff]
    have hids2 : idsOf (hm.heightMap.take i0
        ++ (insertScan items i0 b 0 hm.indexes).1
        ++ (shiftReindex (hm.heightMap.drop i0) (i0 + items.length)
          (insertScan items i0 b 0 hm.indexes).2.1
          (insertScan items i0 b 0 hm.indexes).2.2.1).1) =
        idsOf (hm.heightMap.take i0) ++ items.map Item.id
          ++ idsOf (hm.heightMap.drop i0) := by
      rw [idsOf_append, idsOf_append, insertScan_ids, shiftReindex_rows,
        idsOf_map_shift]
    rw [hids2]
    rw [List.nodup_append]
    refine ⟨?_, hndsuf, ?_⟩
    · rw [List.nodup_append]
      refine ⟨hndpre, hnditems, ?_⟩
      intro a ha hb
      exact hdisj a hb (hpresub a ha)
    · intro a ha
      rcases List.mem_append.mp ha with h4 | h4
      · exact hdisjps a h4
      · exact fun hin => hdisj a h4 (hsufsub a hin)


/-! ## Index consistency under remove -/

theorem removeRunB_bound (rows : List ViewItem) (ids : List String)
    (idx : List (String × Nat)) (s : Nat)
    (h : removeRunB rows ids idx s = true) :
    ids = [] ∨ s + ids.length ≤ rows.length := by
  induction ids generalizing idx s with
  | nil => exact Or.inl rfl
  | cons id rest ih =>
    simp only [removeRunB, Bool.and_eq_true, decide_eq_true_eq] at h
    obtain ⟨⟨⟨_, _⟩, hs⟩, hrest⟩ := h
    right
    rcases ih (delIdx idx id) (s + 1) hrest with h0 | h0
    · subst h0
      simp only [List.length_cons, List.length_nil]
      omega
    · simp only [List.length_cons]
      omega

theorem delAll_snoc (idx : List (String × Nat)) (D : List String) (id : String) :
    delIdx (delAll idx D) id = delAll idx (D ++ [id]) := by
  simp [delAll, List.foldl_append]

theorem get?_append2_lt {α : Type} (A B : List α) (k : Nat) (h : k < A.length) :
    (A ++ B).get? k = A.get? k := by
  rw [List.get?_eq_getElem?, List.get?_eq_getElem?, List.getElem?_append, if_pos h]

theorem get?_append2_ge {α : Type} (A B : List α) (k : Nat) (h : A.length ≤ k) :
    (A ++ B).get? k = B.get? (k - A.length) := by
  rw [List.get?_eq_getElem?, List.get?_eq_getElem?, List.getElem?_append,
    if_neg (by omega)]

/-- Under index consistency, a scan-valid run of identities is exactly the
identity column of the contiguous row segment it removes. -/
theorem removeRun_ids (rows : List ViewItem) (idx : List (String × Nat))
    (hs : slotsOK rows idx = true) (he : entriesOK rows idx = true)
    (ids : List String) (D : List String) (s : Nat)
    (hrun : removeRunB rows ids (delAll idx D) s = true) :
    ids = idsOf ((rows.drop s).take ids.length) := by
  induction ids generalizing D s with
  | nil => rfl
  | cons id rest ih =>
    simp only [removeRunB, Bool.and_eq_true, Bool.not_eq_true', beq_iff_eq,
      decide_eq_true_eq] at hrun
    obtain ⟨⟨⟨hne, hl⟩, hslen⟩, hrest⟩ := hrun
    by_cases hmemD : id ∈ D
    · rw [lookup_delAll_mem D idx id hmemD] at hl
      exact absurd hl (by simp)
    · rw [lookup_delAll_not_mem D idx id hmemD] at hl
      obtain ⟨v, hgv, hvid⟩ := lookup_row rows idx hs he id s hl
      rw [delAll_snoc idx D id] at hrest
      have htl := ih (D ++ [id]) (s + 1) hrest
      rw [drop_eq_get_cons rows s v hgv]
      simp only [List.length_cons, List.take_succ_cons, idsOf, List.map_cons]
      rw [hvid]
      simp only [idsOf] at htl
      rw [← htl]

/-- A valid remove of nonzero total extent (or of nothing) preserves index
consistency and identity distinctness. -/
theorem I2B_remove_preserved (hm : HeightMap) (ids : List String)
    (h2 : I2B hm = true) (hnd : nodupIdsB hm = true)
    (hv : validRemoveB hm ids = true)
    (hsz : ids = [] ∨
      ¬ (removeScan ids hm.heightMap hm.indexes 0 none 0).sizeDiff = 0) :
    I2B (hm.onRemoveItems ids).1 = true ∧
      nodupIdsB (hm.onRemoveItems ids).1 = true := by
  cases ids with
  | nil =>
    constructor
    · simpa [HeightMap.onRemoveItems, removeScan, I2B] using h2
    · simpa [HeightMap.onRemoveItems, removeScan, nodupIdsB] using hnd
  | cons id0 rest =>
    unfold I2B at h2
    have hslots := ((Bool.and_eq_true _ _).mp h2).1
    have hentries := ((Bool.and_eq_true _ _).mp h2).2
    unfold nodupIdsB at hnd
    have hndrows : (idsOf hm.heightMap).Nodup := of_decide_eq_true hnd
    simp only [validRemoveB] at hv
    split at hv
    · simp at hv
    · rename_i s hl
      have hs : s < hm.heightMap.length := by
        have hv' := hv
        simp only [removeRunB, Bool.and_eq_true, decide_eq_true_eq] at hv'
        exact hv'.1.2
      have hchar := removeScan_top hm.heightMap hm.indexes id0 rest s hv
      have hids : id0 :: rest
          = idsOf ((hm.heightMap.drop s).take (rest.length + 1)) := by
        have := removeRun_ids hm.heightMap hm.indexes hslots hentries
          (id0 :: rest) [] s hv
        simpa using this
      have hL : s + (rest.length + 1) ≤ hm.heightMap.length := by
        rcases removeRunB_bound hm.heightMap (id0 :: rest) hm.indexes s hv with h0 | h0
        · exact absurd h0 (by simp)
        · simpa using h0
      have hdropsplit :
          ((hm.heightMap.drop s).take (rest.length + 1))
            ++ hm.heightMap.drop (s + (rest.length + 1)) = hm.heightMap.drop s := by
        have := List.take_append_drop (rest.length + 1) (hm.heightMap.drop s)
        rw [List.drop_drop] at this
        exact this
      have hidsplit : idsOf hm.heightMap
          = idsOf (hm.heightMap.take s)
            ++ (idsOf ((hm.heightMap.drop s).take (rest.length + 1))
              ++ idsOf (hm.heightMap.drop (s + (rest.length + 1)))) := by
        conv_lhs => rw [← List.take_append_drop s hm.heightMap, ← hdropsplit]
        simp only [idsOf_append]
      rw [hidsplit] at hndrows
      have hA := (List.nodup_append.mp hndrows).1
      have hBC := (List.nodup_append.mp hndrows).2.1
      have hdisjA := (List.nodup_append.mp hndrows).2.2
      have hB := (List.nodup_append.mp hBC).1
      have hC := (List.nodup_append.mp hBC).2.1
      have hdisjBC := (List.nodup_append.mp hBC).2.2
      have hlP : (hm.heightMap.take s).length = s := by
        simp [List.length_take]
        omega
      have hsd : ¬ (removeScan (id0 :: rest) hm.heightMap hm.indexes 0
          none 0).sizeDiff = 0 := by
        rcases hsz with h0 | h0
        · exact absurd h0 (by simp)
        · exact h0
      have hz : ¬ -heightSum ((hm.heightMap.drop s).take (rest.length + 1)) = 0 := by
        simpa [hchar] using hsd
      have hidsF : idsOf (hm.heightMap.take s
          ++ (shiftReindex (hm.heightMap.drop (s + (rest.length + 1))) s
            (-heightSum ((hm.heightMap.drop s).take (rest.length + 1)))
            (delAll hm.indexes (id0 :: rest))).1)
          = idsOf (hm.heightMap.take s)
            ++ idsOf (hm.heightMap.drop (s + (rest.length + 1))) := by
        rw [idsOf_append, shiftReindex_rows, idsOf_map_shift]
      unfold HeightMap.onRemoveItems
      simp only [hchar, List.length_cons]
      rw [if_neg (by simp : ¬ (true = false))]
      rw [if_neg hz]
      have hcnt : (Int.ofNat (s + rest.length) - Int.ofNat s + 1).toNat
          = rest.length + 1 := by
        simp only [Int.ofNat_eq_natCast]; omega
      simp only [hcnt]
      rw [drop_of_splice _ _ _ (le_of_lt hs), take_of_splice _ _ _ (le_of_lt hs)]
      constructor
      · unfold I2B
        rw [Bool.and_eq_true]
        constructor
        · rw [slotsOK_iff]
          intro k v hkv
          rw [shiftReindex_rows] at hkv
          rcases Nat.lt_or_ge k s with hk1 | hk1
          · rw [get?_append2_lt _ _ k (by rw [hlP]; exact hk1)] at hkv
            have hkrow : hm.heightMap.get? k = some v := by
              rw [List.get?_eq_getElem?] at hkv ⊢
              rw [List.getElem?_take, if_pos hk1] at hkv
              exact hkv
            have hvP : v.model.id ∈ idsOf (hm.heightMap.take s) := by
              have : v ∈ hm.heightMap.take s := by
                rw [List.get?_eq_getElem?] at hkv
                exact List.getElem?_mem hkv
              exact List.mem_map_of_mem _ this
            rw [shiftReindex_lookup_not_mem _ _ _ _ _
              (fun hin => hdisjA hvP (List.mem_append_right _ hin))]
            rw [lookup_delAll_not_mem _ _ _
              (by rw [hids]; exact fun hin => hdisjA hvP (List.mem_append_left _ hin))]
            exact (slotsOK_iff _ _).mp hslots k v hkrow
          · rw [get?_append2_ge _ _ k (by rw [hlP]; exact hk1), hlP] at hkv
            rw [List.get?_eq_getElem?, List.getElem?_map] at hkv
            cases hw : (hm.heightMap.drop (s + (rest.length + 1)))[k - s]? with
            | none => rw [hw] at hkv; exact absurd hkv (by simp)
            | some w =>
              rw [hw] at hkv
              simp only [Option.map_some', Option.some.injEq] at hkv
              have hvw : v.model.id = w.model.id := by rw [← hkv]
              rw [hvw]
              have := shiftReindex_lookup_mem
                (hm.heightMap.drop (s + (rest.length + 1))) s
                (-heightSum ((hm.heightMap.drop s).take (rest.length + 1)))
                (delAll hm.indexes (id0 :: rest)) (k - s) w hC
                (by rw [List.get?_eq_getElem?]; exact hw)
              rw [this]
              congr 1
              omega
        · rw [entriesOK_iff]
          intro p hp
          rw [hidsF]
          rcases mem_keys_shiftReindex _ _ _ _ p hp with hin | hin
          · exact List.mem_append_right _ hin
          · rcases List.mem_map.mp hin with ⟨q, hq, hqk⟩
            obtain ⟨hqidx, hqnot⟩ := mem_delAll hm.indexes (id0 :: rest) q hq
            have hqmem := (entriesOK_iff _ _).mp hentries q hqidx
            rw [hidsplit] at hqmem
            rcases List.mem_append.mp hqmem with h4 | h4
            · rw [← hqk]; exact List.mem_append_left _ h4
            · rcases List.mem_append.mp h4 with h5 | h5
              · exfalso
                apply hqnot
                rw [hids]
                exact h5
              · rw [← hqk]; exact List.mem_append_right _ h5
      · unfold nodupIdsB
        rw [decide_eq_true_iff]
        rw [hidsF]
        rw [List.nodup_append]
        refine ⟨hA, hC, ?_⟩
        intro a ha hb
        exact hdisjA ha (List.mem_append_right _ hb)

/-! ## Index consistency under refresh, and the combined step -/

theorem slotsOK_of_ids_eq (rows1 rows2 : List ViewItem)
    (idx : List (String × Nat)) (hids : idsOf rows1 = idsOf rows2)
    (h : slotsOK rows2 idx = true) : slotsOK rows1 idx = true := by
  rw [slotsOK_iff]
  intro k v hkv
  have h1 : (idsOf rows1).get? k = some v.model.id := by
    unfold idsOf
    rw [List.get?_eq_getElem?, List.getElem?_map]
    rw [List.get?_eq_getElem?] at hkv
    rw [hkv]
    rfl
  rw [hids] at h1
  unfold idsOf at h1
  rw [List.get?_eq_getElem?, List.getElem?_map] at h1
  cases hw : rows2[k]? with
  | none => rw [hw] at h1; exact absurd h1 (by simp)
  | some w =>
    rw [hw] at h1
    simp only [Option.map_some', Option.some.injEq] at h1
    have := (slotsOK_iff rows2 idx).mp h k w
      (by rw [List.get?_eq_getElem?]; exact hw)
    rw [h1] at this
    exact this

theorem entriesOK_of_ids_eq (rows1 rows2 : List ViewItem)
    (idx : List (String × Nat)) (hids : idsOf rows1 = idsOf rows2)
    (h : entriesOK rows2 idx = true) : entriesOK rows1 idx = true := by
  rw [entriesOK_iff] at h ⊢
  intro p hp
  rw [hids]
  exact h p hp

theorem validOp2B_weaken (hm : HeightMap) (op : Op)
    (h : validOp2B hm op = true) : validOpB hm op = true := by
  cases op with
  | insert items aft =>
    simp only [validOp2B, Bool.and_eq_true] at h
    simpa [validOpB] using h.2
  | remove ids =>
    simp only [validOp2B, Bool.and_eq_true] at h
    simpa [validOpB] using h.1
  | refresh items => simpa [validOpB] using h

/-- One strongly-valid operation preserves contiguity, index consistency
and identity distinctness together. -/
theorem invariants_applyOp2 (hm : HeightMap) (op : Op)
    (h1 : I1B hm = true) (h2 : I2B hm = true) (hnd : nodupIdsB hm = true)
    (hv : validOp2B hm op = true) :
    I1B (applyOp hm op) = true ∧ I2B (applyOp hm op) = true ∧
      nodupIdsB (applyOp hm op) = true := by
  refine ⟨I1B_applyOp hm op h1 (validOp2B_weaken hm op hv), ?_⟩
  have hslots : slotsOK hm.heightMap hm.indexes = true := by
    unfold I2B at h2
    exact ((Bool.and_eq_true _ _).mp h2).1
  have hentries : entriesOK hm.heightMap hm.indexes = true := by
    unfold I2B at h2
    exact ((Bool.and_eq_true _ _).mp h2).2
  cases op with
  | insert items aft =>
    simp only [validOp2B, Bool.and_eq_true] at hv
    obtain ⟨hfresh, haft⟩ := hv
    have hstart : ∃ i0 b, insertStart hm aft = some (i0, b) := by
      cases aft with
      | none => exact ⟨0, 0, rfl⟩
      | some a =>
        have haft2 : (List.lookup a hm.indexes).isSome = true := haft
        cases hl : List.lookup a hm.indexes with
        | none => rw [hl] at haft2; exact absurd haft2 (by simp)
        | some k =>
          obtain ⟨v, hvv, _⟩ := lookup_row hm.heightMap hm.indexes
            hslots hentries a k hl
          refine ⟨k + 1, v.top + v.height, ?_⟩
          rw [List.get?_eq_getElem?] at hvv
          simp [insertStart, hl, hvv]
    obtain ⟨i0, b, hstart⟩ := hstart
    obtain ⟨hm2, sd, tr, hres, h2b, hndb⟩ :=
      I2B_insert_preserved hm items aft i0 b h2 hnd hfresh hstart
    constructor
    · simpa [applyOp, hres] using h2b
    · simpa [applyOp, hres] using hndb
  | remove ids =>
    simp only [validOp2B, Bool.and_eq_true] at hv
    obtain ⟨hvr, hsz0⟩ := hv
    have hsz : ids = [] ∨
        ¬ (removeScan ids hm.heightMap hm.indexes 0 none 0).sizeDiff = 0 := by
      cases ids with
      | nil => exact Or.inl rfl
      | cons a b =>
        right
        rcases (Bool.or_eq_true _ _).mp hsz0 with h0 | h0
        · exact absurd h0 (by simp)
        · simp only [Bool.not_eq_true', beq_eq_false_iff_ne] at h0
          exact h0
    have := I2B_remove_preserved hm ids h2 hnd hvr hsz
    simpa [applyOp] using this
  | refresh items =>
    have hasc : ascRunB hm.indexes hm.heightMap.length items 0 = true := by
      simpa [validOp2B] using hv
    obtain ⟨hm2, tr, heq, _, hidx, hids⟩ := onRefreshItems_I1 hm items h1 hasc
    constructor
    · have hsl : slotsOK hm2.heightMap hm2.indexes = true := by
        rw [hidx]
        exact slotsOK_of_ids_eq hm2.heightMap hm.heightMap hm.indexes hids hslots
      have hen : entriesOK hm2.heightMap hm2.indexes = true := by
        rw [hidx]
        exact entriesOK_of_ids_eq hm2.heightMap hm.heightMap hm.indexes hids hentries
      have : I2B hm2 = true := by
        unfold I2B
        rw [hsl, hen]
        rfl
      simpa [applyOp, heq] using this
    · have : nodupIdsB hm2 = true := by
        unfold nodupIdsB at hnd ⊢
        rw [hids]
        exact hnd
      simpa [applyOp, heq] using this

theorem validSeq2B_runOps_inv (l1 : List Op) (hm : HeightMap) (l2 : List Op)
    (h1 : I1B hm = true) (h2 : I2B hm = true) (hnd : nodupIdsB hm = true)
    (hv : validSeq2B hm (l1 ++ l2) = true) :
    I1B (runOps hm l1) = true ∧ I2B (runOps hm l1) = true ∧
      nodupIdsB (runOps hm l1) = true := by
  induction l1 generalizing hm with
  | nil => exact ⟨h1, h2, hnd⟩
  | cons op l1' ih =>
    simp only [List.cons_append, validSeq2B, Bool.and_eq_true] at hv
    obtain ⟨ha, hb, hc⟩ := invariants_applyOp2 hm op h1 h2 hnd hv.1
    exact ih (applyOp hm op) ha hb hc hv.2

/-- C2 counterexample: a remove of a present contiguous run whose rows all
have extent 0 is a completed mutation under the claim's stated
preconditions, yet it leaves the index inconsistent: the early
`sizeDiff === 0` return keeps the rows but has already deleted their index
entries. -/
theorem c2_counterexample :
    validSeqB HeightMap.empty
      [Op.insert [⟨"z", 0⟩] none, Op.remove ["z"]] = true ∧
    I2B (runOps HeightMap.empty [Op.insert [⟨"z", 0⟩] none]) = true ∧
    I2B (runOps HeightMap.empty
      [Op.insert [⟨"z", 0⟩] none, Op.remove ["z"]]) = false := by
  decide

/-- C2 (amended): index consistency I2 — every row's identity is indexed
at its actual slot and the index holds exactly the present identities —
together with pairwise-distinct identities and
`totalExtent() = heightSum rows` (the last row's `offset + extent`, 0 when
empty), holds after every prefix of a sequence of operations that is valid
in the strengthened sense `validSeq2B`: inserts are of fresh identities
with a present (or absent) anchor, removes are of a present contiguous run
that is empty or has nonzero total extent, refreshes are of present items
in ascending slot order.  The original claim is false for a remove of a
nonzero run of zero total extent (`c2_counterexample`). -/
theorem c2_index_consistency (ops l1 l2 : List Op)
    (hv : validSeq2B HeightMap.empty ops = true)
    (hsplit : ops = l1 ++ l2) :
    I2B (runOps HeightMap.empty l1) = true ∧
      nodupIdsB (runOps HeightMap.empty l1) = true ∧
      (runOps HeightMap.empty l1).getTotalHeight
        = heightSum (runOps HeightMap.empty l1).heightMap := by
  subst hsplit
  obtain ⟨ha, hb, hc⟩ := validSeq2B_runOps_inv l1 HeightMap.empty l2
    rfl (by decide) (by decide) hv
  exact ⟨hb, hc, getTotalHeight_eq_heightSum _ ha⟩

theorem c2_index_consistency_witness :
    validSeq2B HeightMap.empty
      [Op.insert [⟨"a", 10⟩, ⟨"b", 20⟩] none, Op.refresh [⟨"a", 5⟩],
        Op.remove ["a"]] = true
    ∧ (I2B (runOps HeightMap.empty
          [Op.insert [⟨"a", 10⟩, ⟨"b", 20⟩] none, Op.refresh [⟨"a", 5⟩]]) = true
        ∧ nodupIdsB (runOps HeightMap.empty
          [Op.insert [⟨"a", 10⟩, ⟨"b", 20⟩] none, Op.refresh [⟨"a", 5⟩]]) = true
        ∧ (runOps HeightMap.empty
            [Op.insert [⟨"a", 10⟩, ⟨"b", 20⟩] none,
              Op.refresh [⟨"a", 5⟩]]).getTotalHeight
          = heightSum (runOps HeightMap.empty
            [Op.insert [⟨"a", 10⟩, ⟨"b", 20⟩] none,
              Op.refresh [⟨"a", 5⟩]]).heightMap) :=
  ⟨by decide,
    c2_index_consistency
      [Op.insert [⟨"a", 10⟩, ⟨"b", 20⟩] none, Op.refresh [⟨"a", 5⟩],
        Op.remove ["a"]]
      [Op.insert [⟨"a", 10⟩, ⟨"b", 20⟩] none, Op.refresh [⟨"a", 5⟩]]
      [Op.remove ["a"]] (by decide) rfl⟩

/-! ## The index as a finite map: keys, appends, and the round trip -/

theorem lookup_isSome_iff_mem_keys (l : List (String × Nat)) (k : String) :
    (List.lookup k l).isSome = true ↔ k ∈ l.map Prod.fst := by
  induction l with
  | nil => simp [List.lookup]
  | cons p rest ih =>
    obtain ⟨a, b⟩ := p
    rw [List.lookup_cons]
    cases hb : (k == a) with
    | true =>
      have : k = a := by simpa using hb
      simp [this]
    | false =>
      have : ¬ k = a := by simpa using hb
      simp [this, ih]

theorem lookup_none_of_not_mem_keys (l : List (String × Nat)) (k : String)
    (h : k ∉ l.map Prod.fst) : List.lookup k l = none := by
  cases hl : List.lookup k l with
  | none => rfl
  | some v =>
    exfalso
    exact h ((lookup_isSome_iff_mem_keys l k).mp (by rw [hl]; rfl))

theorem keys_overwrite_map (l : List (String × Nat)) (k : String) (v : Nat) :
    (l.map fun p => if p.1 = k then (k, v) else p).map Prod.fst
      = l.map Prod.fst := by
  induction l with
  | nil => rfl
  | cons p rest ih =>
    obtain ⟨a, b⟩ := p
    by_cases hk : a = k
    · subst hk
      simp [ih]
    · simp [hk, ih]

theorem keys_setIdx_overwrite (idx : List (String × Nat)) (k : String) (v : Nat)
    (h : (List.lookup k idx).isSome = true) :
    (setIdx idx k v).map Prod.fst = idx.map Prod.fst := by
  rw [setIdx, if_pos h]
  exact keys_overwrite_map idx k v

theorem present_setIdx (idx : List (String × Nat)) (k id : String) (v : Nat)
    (h : (List.lookup k idx).isSome = true) :
    (List.lookup k (setIdx idx id v)).isSome = true := by
  by_cases hk : k = id
  · subst hk
    rw [lookup_setIdx_self]
    rfl
  · rw [lookup_setIdx_ne _ _ _ _ hk]
    exact h

theorem lookup_append_left (A B : List (String × Nat)) (k : String)
    (h : (List.lookup k A).isSome = true) :
    List.lookup k (A ++ B) = List.lookup k A := by
  induction A with
  | nil => simp [List.lookup] at h
  | cons p rest ih =>
    obtain ⟨a, b⟩ := p
    rw [List.cons_append, List.lookup_cons, List.lookup_cons]
    cases hb : (k == a) with
    | true => rfl
    | false =>
      rw [List.lookup_cons, hb] at h
      exact ih h

theorem lookup_append_right (A B : List (String × Nat)) (k : String)
    (h : List.lookup k A = none) :
    List.lookup k (A ++ B) = List.lookup k B := by
  induction A with
  | nil => rfl
  | cons p rest ih =>
    obtain ⟨a, b⟩ := p
    rw [List.lookup_cons] at h
    rw [List.cons_append, List.lookup_cons]
    cases hb : (k == a) with
    | true => rw [hb] at h; exact absurd h (by simp)
    | false => rw [hb] at h; exact ih h

/-- The reindex pass of the shift loop keeps the index's key column when
every shifted row's identity is already a key. -/
theorem keys_shiftReindex (rows : List ViewItem) (j : Nat) (d : Int)
    (idx : List (String × Nat))
    (h : ∀ v ∈ rows, (List.lookup v.model.id idx).isSome = true) :
    ((shiftReindex rows j d idx).2).map Prod.fst = idx.map Prod.fst := by
  induction rows generalizing j idx with
  | nil => rfl
  | cons r rest ih =>
    simp only [shiftReindex]
    rw [ih (j + 1) (setIdx idx r.model.id j)
      (fun v hv => present_setIdx idx v.model.id r.model.id j
        (h v (List.mem_cons_of_mem r hv)))]
    exact keys_setIdx_overwrite idx r.model.id j (h r (List.mem_cons_self r rest))

/-- A scan over fresh identities only appends to the index. -/
theorem insertScan_idx_split (items : List Item) (i : Nat) (b sd : Int)
    (idx : List (String × Nat))
    (hfr : ∀ it ∈ items, it.id ∉ idx.map Prod.fst)
    (hnd : (items.map Item.id).Nodup) :
    ∃ E, (insertScan items i b sd idx).2.2.1 = idx ++ E ∧
      ∀ p ∈ E, p.1 ∈ items.map Item.id := by
  induction items generalizing i sd idx with
  | nil => exact ⟨[], by simp [insertScan], by simp⟩
  | cons it rest ih =>
    simp only [List.map_cons, List.nodup_cons] at hnd
    have hl0 : List.lookup it.id idx = none :=
      lookup_none_of_not_mem_keys idx it.id (hfr it (List.mem_cons_self it rest))
    have hset : setIdx idx it.id i = idx ++ [(it.id, i)] := by
      rw [setIdx, if_neg (by rw [hl0]; simp)]
    have hfr2 : ∀ it2 ∈ rest, it2.id ∉ (idx ++ [(it.id, i)]).map Prod.fst := by
      intro it2 hit2
      rw [List.map_append]
      intro hmem
      rcases List.mem_append.mp hmem with h1 | h1
      · exact hfr it2 (List.mem_cons_of_mem it hit2) h1
      · simp only [List.map_cons, List.map_nil, List.mem_singleton] at h1
        exact hnd.1 (h1 ▸ List.mem_map_of_mem Item.id hit2)
    obtain ⟨E2, hE2, hE2k⟩ := ih (i + 1) (sd + (createViewItem it).height)
      (idx ++ [(it.id, i)]) hfr2 hnd.2
    refine ⟨(it.id, i) :: E2, ?_, ?_⟩
    · simp only [insertScan, hset]
      rw [hE2, List.append_assoc]
      rfl
    · intro p hp
      rcases List.mem_cons.mp hp with h1 | h1
      · subst h1
        exact List.mem_cons_self _ _
      · exact List.mem_cons_of_mem _ (hE2k p h1)

/-- The shift loop's reindexing over `A ++ B` acts inside `A` when every
touched key lives in `A` and none in `B`. -/
theorem shiftReindex_idx_append (rows : List ViewItem) (j : Nat) (d : Int)
    (A B : List (String × Nat))
    (hpres : ∀ v ∈ rows, v.model.id ∈ A.map Prod.fst)
    (hnotB : ∀ v ∈ rows, v.model.id ∉ B.map Prod.fst) :
    ∃ A2, (shiftReindex rows j d (A ++ B)).2 = A2 ++ B ∧
      A2.map Prod.fst = A.map Prod.fst := by
  induction rows generalizing j A with
  | nil => exact ⟨A, rfl, rfl⟩
  | cons r rest ih =>
    have hsome : (List.lookup r.model.id (A ++ B)).isSome = true := by
      rw [lookup_isSome_iff_mem_keys, List.map_append]
      exact List.mem_append_left _ (hpres r (List.mem_cons_self r rest))
    have hBid : (B.map fun p =>
        if p.1 = r.model.id then (r.model.id, j) else p) = B := by
      have : ∀ p ∈ B, (if p.1 = r.model.id then (r.model.id, j) else p) = p := by
        intro p hp
        rw [if_neg]
        intro he
        exact hnotB r (List.mem_cons_self r rest) (he ▸ List.mem_map_of_mem Prod.fst hp)
      rw [List.map_congr_left this]
      simp
    have hset : setIdx (A ++ B) r.model.id j
        = (A.map fun p => if p.1 = r.model.id then (r.model.id, j) else p) ++ B := by
      rw [setIdx, if_pos hsome, List.map_append, hBid]
    have hkeysA : ((A.map fun p =>
        if p.1 = r.model.id then (r.model.id, j) else p).map Prod.fst)
        = A.map Prod.fst := keys_overwrite_map A r.model.id j
    obtain ⟨A2, hA2, hA2k⟩ := ih (j + 1)
      (A.map fun p => if p.1 = r.model.id then (r.model.id, j) else p)
      (fun v hv => by rw [hkeysA]; exact hpres v (List.mem_cons_of_mem r hv))
      (fun v hv => hnotB v (List.mem_cons_of_mem r hv))
    refine ⟨A2, ?_, by rw [hA2k, hkeysA]⟩
    simp only [shiftReindex]
    rw [hset]
    exact hA2

theorem delAll_append (A B : List (String × Nat)) (ids : List String) :
    delAll (A ++ B) ids = delAll A ids ++ delAll B ids := by
  induction ids generalizing A B with
  | nil => rfl
  | cons k ks ih =>
    rw [show delAll (A ++ B) (k :: ks) = delAll (delIdx (A ++ B) k) ks from rfl]
    rw [show delIdx (A ++ B) k = delIdx A k ++ delIdx B k from List.filter_append _ _]
    exact ih (delIdx A k) (delIdx B k)

theorem delAll_of_disjoint (A : List (String × Nat)) (ids : List String)
    (h : ∀ p ∈ A, p.1 ∉ ids) : delAll A ids = A := by
  induction ids with
  | nil => rfl
  | cons k ks ih =>
    rw [show delAll A (k :: ks) = delAll (delIdx A k) ks from rfl]
    have hdel : delIdx A k = A := by
      rw [delIdx]
      rw [List.filter_eq_self]
      intro p hp
      simp only [decide_eq_true_eq]
      intro he
      exact h p hp (he ▸ List.mem_cons_self k ks)
    rw [hdel]
    exact ih (fun p hp hin => h p hp (List.mem_cons_of_mem k hin))

theorem delAll_nil_of_subset (E : List (String × Nat)) (ids : List String)
    (h : ∀ p ∈ E, p.1 ∈ ids) : delAll E ids = [] := by
  rw [List.eq_nil_iff_forall_not_mem]
  intro p hp
  obtain ⟨hpe, hpn⟩ := mem_delAll E ids p hp
  exact hpn (h p hpe)

/-- Two association lists with the same key column (without repetition)
and the same lookups are equal. -/
theorem assoc_ext (l1 l2 : List (String × Nat))
    (hk : l1.map Prod.fst = l2.map Prod.fst)
    (hnd : (l1.map Prod.fst).Nodup)
    (hl : ∀ k, List.lookup k l1 = List.lookup k l2) : l1 = l2 := by
  induction l1 generalizing l2 with
  | nil =>
    cases l2 with
    | nil => rfl
    | cons q t2 => exact absurd hk (by simp)
  | cons p t1 ih =>
    obtain ⟨a, v1⟩ := p
    cases l2 with
    | nil => exact absurd hk (by simp)
    | cons q t2 =>
      obtain ⟨a2, v2⟩ := q
      simp only [List.map_cons, List.cons.injEq] at hk
      obtain ⟨ha, htk⟩ := hk
      subst ha
      simp only [List.map_cons, List.nodup_cons] at hnd
      have hv : v1 = v2 := by
        have := hl a
        rw [List.lookup_cons, List.lookup_cons] at this
        simp only [beq_self_eq_true] at this
        exact Option.some.inj this
      subst hv
      have htl : ∀ k, List.lookup k t1 = List.lookup k t2 := by
        intro k
        by_cases hka : k = a
        · subst hka
          rw [lookup_none_of_not_mem_keys t1 k hnd.1,
            lookup_none_of_not_mem_keys t2 k (htk ▸ hnd.1)]
        · have := hl k
          have hb : (k == a) = false := by
            simp only [beq_eq_false_iff_ne]; exact hka
          rw [List.lookup_cons, List.lookup_cons, hb] at this
          exact this
      rw [ih t2 htk hnd.2 htl]

theorem map_shift_cancel (l : List ViewItem) (d1 d2 : Int) (h : d1 + d2 = 0) :
    ((l.map fun v => { v with top := v.top + d1 }).map
      fun v => { v with top := v.top + d2 }) = l := by
  induction l with
  | nil => rfl
  | cons v rest ih =>
    simp only [List.map_cons, ih]
    congr 1
    obtain ⟨m, t, ht⟩ := v
    simp only [ViewItem.mk.injEq]
    refine ⟨by trivial, by omega, by trivial⟩

/-- The identity column of a contiguous in-bounds row segment with
nonempty, pairwise-distinct identities passes the remove scan's run
check. -/
theorem removeRunB_run (rows : List ViewItem) (idx : List (String × Nat))
    (hs : slotsOK rows idx = true) (hrnd : (idsOf rows).Nodup)
    (L : Nat) : ∀ (s : Nat) (D : List String), s + L ≤ rows.length →
    (∀ id ∈ idsOf ((rows.drop s).take L), id ∉ D) →
    (∀ id ∈ idsOf ((rows.drop s).take L), ¬ id = "") →
    removeRunB rows (idsOf ((rows.drop s).take L)) (delAll idx D) s = true := by
  induction L with
  | zero =>
    intro s D hbound hD hne
    simp [idsOf, removeRunB]
  | succ L ih =>
    intro s D hbound hD hne
    have hslt : s < rows.length := by omega
    have hvex : ∃ v, rows.get? s = some v := by
      rw [List.get?_eq_getElem?]
      exact ⟨rows[s], List.getElem?_eq_getElem hslt⟩
    obtain ⟨v, hgv⟩ := hvex
    have hseg : idsOf ((rows.drop s).take (L + 1))
        = v.model.id :: idsOf ((rows.drop (s + 1)).take L) := by
      rw [drop_eq_get_cons rows s v hgv, List.take_succ_cons]
      rfl
    have hsegnd : (idsOf ((rows.drop s).take (L + 1))).Nodup := by
      have h1 : idsOf ((rows.drop s).take (L + 1))
          = ((idsOf rows).drop s).take (L + 1) := by
        unfold idsOf
        rw [List.map_take, List.map_drop]
      rw [h1]
      exact hrnd.sublist ((List.take_sublist _ _).trans (List.drop_sublist _ _))
    rw [hseg]
    rw [hseg] at hD hne hsegnd
    simp only [removeRunB, Bool.and_eq_true, Bool.not_eq_true', beq_iff_eq,
      decide_eq_true_eq]
    refine ⟨⟨⟨?_, ?_⟩, hslt⟩, ?_⟩
    · rw [beq_eq_false_iff_ne]
      exact hne v.model.id (List.mem_cons_self _ _)
    · rw [lookup_delAll_not_mem D idx v.model.id
        (hD v.model.id (List.mem_cons_self _ _))]
      exact (slotsOK_iff rows idx).mp hs s v hgv
    · rw [delAll_snoc idx D v.model.id]
      have hnotv : v.model.id ∉ idsOf ((rows.drop (s + 1)).take L) :=
        (List.nodup_cons.mp hsegnd).1
      refine ih (s + 1) (D ++ [v.model.id]) (by omega) ?_ ?_
      · intro id hid
        rw [List.mem_append]
        rintro (h1 | h1)
        · exact hD id (List.mem_cons_of_mem _ hid) h1
        · simp only [List.mem_singleton] at h1
          exact hnotv (h1 ▸ hid)
      · intro id hid
        exact hne id (List.mem_cons_of_mem _ hid)

/-- C4 counterexample: inserting a zero-height item and removing exactly
its identity does not restore the prior state — the remove's
`sizeDiff === 0` early return deletes the index entry but keeps the row. -/
theorem c4_counterexample :
    (HeightMap.empty.onInsertItems [⟨"a", 0⟩] none).isSome = true ∧
    runOps HeightMap.empty
      [Op.insert [⟨"a", 0⟩] none, Op.remove ["a"]] ≠ HeightMap.empty := by
  decide

/-- C4 (amended): for a state whose index is consistent with
pairwise-distinct row identities and repetition-free keys, inserting a
sequence of fresh items with nonempty identities and nonzero total extent
(at a resolvable anchor) and then removing exactly those items'
identities restores the prior state bit for bit — the same row list
(offsets, extents, order) and the same index association list.  The
original claim is false for inserted sequences of zero total extent, e.g.
one containing only zero-height items (`c4_counterexample`). -/
theorem c4_insert_remove_roundtrip (hm : HeightMap) (items : List Item)
    (aft : Option String) (i0 : Nat) (b : Int)
    (h2 : I2B hm = true) (hnd : nodupIdsB hm = true)
    (hkeys : (hm.indexes.map Prod.fst).Nodup)
    (hfresh : freshItemsB hm items = true)
    (hne : ∀ it ∈ items, ¬ it.id = "")
    (hstart : insertStart hm aft = some (i0, b))
    (hsz : ¬ itemHeightSum items = 0) :
    ∃ hm1 sd tr, hm.onInsertItems items aft = some (hm1, sd, tr) ∧
      (hm1.onRemoveItems (items.map Item.id)).1 = hm := by
  have hle := insertStart_le hm aft i0 b hstart
  have hslots : slotsOK hm.heightMap hm.indexes = true := by
    unfold I2B at h2
    exact ((Bool.and_eq_true _ _).mp h2).1
  have hndrows : (idsOf hm.heightMap).Nodup := by
    unfold nodupIdsB at hnd
    exact of_decide_eq_true hnd
  have hnditems : (items.map Item.id).Nodup := by
    unfold freshItemsB at hfresh
    exact of_decide_eq_true ((Bool.and_eq_true _ _).mp hfresh).1
  have hfresh2 : ∀ it ∈ items, List.lookup it.id hm.indexes = none := by
    intro it hit
    unfold freshItemsB at hfresh
    have := List.all_eq_true.mp ((Bool.and_eq_true _ _).mp hfresh).2 it hit
    exact Option.isNone_iff_eq_none.mp this
  have hfreshkeys : ∀ it ∈ items, it.id ∉ hm.indexes.map Prod.fst := by
    intro it hit hmem
    have hs2 := (lookup_isSome_iff_mem_keys hm.indexes it.id).mpr hmem
    rw [hfresh2 it hit] at hs2
    exact absurd hs2 (by simp)
  have hitems_ne : items ≠ [] := by
    intro h0
    subst h0
    exact hsz rfl
  obtain ⟨it0, irest, hitems⟩ := List.exists_cons_of_ne_nil hitems_ne
  have hlen2 : irest.length + 1 = items.length := by rw [hitems]; rfl
  have hmapcons : items.map Item.id = it0.id :: irest.map Item.id := by
    rw [hitems]; rfl
  have hpresA : ∀ v ∈ hm.heightMap.drop i0,
      v.model.id ∈ hm.indexes.map Prod.fst := by
    intro v hv
    have hvm : v ∈ hm.heightMap := (List.drop_sublist i0 hm.heightMap).subset hv
    rcases List.mem_iff_getElem?.mp hvm with ⟨t, ht⟩
    have := (slotsOK_iff _ _).mp hslots t v
      (by rw [List.get?_eq_getElem?]; exact ht)
    exact lookup_key_mem hm.indexes v.model.id t this
  have hsufid : ∀ v ∈ hm.heightMap.drop i0, v.model.id ∉ items.map Item.id := by
    intro v hv hmem
    rcases List.mem_map.mp hmem with ⟨it, hit, hitid⟩
    have h1 := hpresA v hv
    rw [← hitid] at h1
    exact hfreshkeys it hit h1
  obtain ⟨E, hEeq, hEkeys⟩ :=
    insertScan_idx_split items i0 b 0 hm.indexes hfreshkeys hnditems
  have hnotE : ∀ v ∈ hm.heightMap.drop i0, v.model.id ∉ E.map Prod.fst := by
    intro v hv hmem
    rcases List.mem_map.mp hmem with ⟨p, hp, hpk⟩
    exact hsufid v hv (hpk ▸ hEkeys p hp)
  obtain ⟨Aov, hAoveq, hAovkeys⟩ := shiftReindex_idx_append
    (hm.heightMap.drop i0) (i0 + items.length)
    (insertScan items i0 b 0 hm.indexes).2.1 hm.indexes E hpresA hnotE
  have hidx1 : (shiftReindex (hm.heightMap.drop i0) (i0 + items.length)
      (insertScan items i0 b 0 hm.indexes).2.1
      (insertScan items i0 b 0 hm.indexes).2.2.1).2 = Aov ++ E := by
    rw [hEeq]
    exact hAoveq
  have hlP : (hm.heightMap.take i0).length = i0 := by
    simp [List.length_take]
    omega
  have hlN : (insertScan items i0 b 0 hm.indexes).1.length = items.length :=
    insertScan_length items i0 b 0 hm.indexes
  have hlS : (shiftReindex (hm.heightMap.drop i0) (i0 + items.length)
      (insertScan items i0 b 0 hm.indexes).2.1
      (insertScan items i0 b 0 hm.indexes).2.2.1).1.length
      = (hm.heightMap.drop i0).length := by
    rw [shiftReindex_rows]
    exact List.length_map _ _
  have hndsuf : (idsOf (hm.heightMap.drop i0)).Nodup := by
    have h1 : idsOf (hm.heightMap.drop i0) = (idsOf hm.heightMap).drop i0 := by
      unfold idsOf
      rw [List.map_drop]
    rw [h1]
    exact hndrows.sublist (List.drop_sublist _ _)
  obtain ⟨hm1, sd, tr, hres, h2b, hndb⟩ :=
    I2B_insert_preserved hm items aft i0 b h2 hnd hfresh hstart
  have hres2 : hm.onInsertItems items aft
      = some (⟨hm.heightMap.take i0 ++ (insertScan items i0 b 0 hm.indexes).1
          ++ (shiftReindex (hm.heightMap.drop i0) (i0 + items.length)
            (insertScan items i0 b 0 hm.indexes).2.1
            (insertScan items i0 b 0 hm.indexes).2.2.1).1,
          (shiftReindex (hm.heightMap.drop i0) (i0 + items.length)
            (insertScan items i0 b 0 hm.indexes).2.1
            (insertScan items i0 b 0 hm.indexes).2.2.1).2⟩,
        (insertScan items i0 b 0 hm.indexes).2.1,
        (insertScan items i0 b 0 hm.indexes).2.2.2
          ++ ((insertScan items i0 b 0 hm.indexes).1.reverse.map
              fun v => Notif.insertHook v.model.id)
          ++ ((shiftReindex (hm.heightMap.drop i0) (i0 + items.length)
              (insertScan items i0 b 0 hm.indexes).2.1
              (insertScan items i0 b 0 hm.indexes).2.2.1).1.reverse.map
              fun v => Notif.refreshed v.model.id false)) := by
    unfold HeightMap.onInsertItems
    rw [hstart]
  rw [hres2] at hres
  simp only [Option.some.injEq, Prod.mk.injEq] at hres
  obtain ⟨hX, -, -⟩ := hres
  rw [← hX] at h2b hndb
  refine ⟨_, _, _, hres2, ?_⟩
  have hslotsX : slotsOK (hm.heightMap.take i0
      ++ (insertScan items i0 b 0 hm.indexes).1
      ++ (shiftReindex (hm.heightMap.drop i0) (i0 + items.length)
        (insertScan items i0 b 0 hm.indexes).2.1
        (insertScan items i0 b 0 hm.indexes).2.2.1).1)
      (shiftReindex (hm.heightMap.drop i0) (i0 + items.length)
        (insertScan items i0 b 0 hm.indexes).2.1
        (insertScan items i0 b 0 hm.indexes).2.2.1).2 = true := by
    have h0 := h2b
    unfold I2B at h0
    exact ((Bool.and_eq_true _ _).mp h0).1
  have hndX : (idsOf (hm.heightMap.take i0
      ++ (insertScan items i0 b 0 hm.indexes).1
      ++ (shiftReindex (hm.heightMap.drop i0) (i0 + items.length)
        (insertScan items i0 b 0 hm.indexes).2.1
        (insertScan items i0 b 0 hm.indexes).2.2.1).1)).Nodup := by
    have h0 := hndb
    unfold nodupIdsB at h0
    exact of_decide_eq_true h0
  have hbound : i0 + items.length ≤ (hm.heightMap.take i0
      ++ (insertScan items i0 b 0 hm.indexes).1
      ++ (shiftReindex (hm.heightMap.drop i0) (i0 + items.length)
        (insertScan items i0 b 0 hm.indexes).2.1
        (insertScan items i0 b 0 hm.indexes).2.2.1).1).length := by
    simp only [List.length_append, hlP, hlN, hlS]
    omega
  have hdrop1 : (hm.heightMap.take i0
      ++ (insertScan items i0 b 0 hm.indexes).1
      ++ (shiftReindex (hm.heightMap.drop i0) (i0 + items.length)
        (insertScan items i0 b 0 hm.indexes).2.1
        (insertScan items i0 b 0 hm.indexes).2.2.1).1).drop i0
      = (insertScan items i0 b 0 hm.indexes).1
        ++ (shiftReindex (hm.heightMap.drop i0) (i0 + items.length)
          (insertScan items i0 b 0 hm.indexes).2.1
          (insertScan items i0 b 0 hm.indexes).2.2.1).1 := by
    rw [List.append_assoc]
    exact List.drop_left' hlP
  have htake1 : (hm.heightMap.take i0
      ++ (insertScan items i0 b 0 hm.indexes).1
      ++ (shiftReindex (hm.heightMap.drop i0) (i0 + items.length)
        (insertScan items i0 b 0 hm.indexes).2.1
        (insertScan items i0 b 0 hm.indexes).2.2.1).1).take i0
      = hm.heightMap.take i0 := by
    rw [List.append_assoc]
    exact List.take_left' hlP
  have hdropL : (hm.heightMap.take i0
      ++ (insertScan items i0 b 0 hm.indexes).1
      ++ (shiftReindex (hm.heightMap.drop i0) (i0 + items.length)
        (insertScan items i0 b 0 hm.indexes).2.1
        (insertScan items i0 b 0 hm.indexes).2.2.1).1).drop (i0 + items.length)
      = (shiftReindex (hm.heightMap.drop i0) (i0 + items.length)
        (insertScan items i0 b 0 hm.indexes).2.1
        (insertScan items i0 b 0 hm.indexes).2.2.1).1 := by
    apply List.drop_left'
    rw [List.length_append, hlP, hlN]
  have hsegM : ((hm.heightMap.take i0
      ++ (insertScan items i0 b 0 hm.indexes).1
      ++ (shiftReindex (hm.heightMap.drop i0) (i0 + items.length)
        (insertScan items i0 b 0 hm.indexes).2.1
        (insertScan items i0 b 0 hm.indexes).2.2.1).1).drop i0).take
          (items.map Item.id).length
      = (insertScan items i0 b 0 hm.indexes).1 := by
    rw [hdrop1]
    apply List.take_left'
    rw [hlN, List.length_map]
  have hsegids : idsOf (((hm.heightMap.take i0
      ++ (insertScan items i0 b 0 hm.indexes).1
      ++ (shiftReindex (hm.heightMap.drop i0) (i0 + items.length)
        (insertScan items i0 b 0 hm.indexes).2.1
        (insertScan items i0 b 0 hm.indexes).2.2.1).1).drop i0).take
          (items.map Item.id).length)
      = items.map Item.id := by
    rw [hsegM]
    exact insertScan_ids items i0 b 0 hm.indexes
  have hsegN : ((hm.heightMap.take i0
      ++ (insertScan items i0 b 0 hm.indexes).1
      ++ (shiftReindex (hm.heightMap.drop i0) (i0 + items.length)
        (insertScan items i0 b 0 hm.indexes).2.1
        (insertScan items i0 b 0 hm.indexes).2.2.1).1).drop i0).take
          (irest.length + 1)
      = (insertScan items i0 b 0 hm.indexes).1 := by
    rw [hdrop1]
    apply List.take_left'
    rw [hlN, ← hlen2]
  have hrun0 := removeRunB_run (hm.heightMap.take i0
      ++ (insertScan items i0 b 0 hm.indexes).1
      ++ (shiftReindex (hm.heightMap.drop i0) (i0 + items.length)
        (insertScan items i0 b 0 hm.indexes).2.1
        (insertScan items i0 b 0 hm.indexes).2.2.1).1)
    (shiftReindex (hm.heightMap.drop i0) (i0 + items.length)
      (insertScan items i0 b 0 hm.indexes).2.1
      (insertScan items i0 b 0 hm.indexes).2.2.1).2
    hslotsX hndX (items.map Item.id).length i0 []
    (by rw [List.length_map]; exact hbound)
    (fun id hid => List.not_mem_nil id)
    (by
      intro id hid
      rw [hsegids] at hid
      rcases List.mem_map.mp hid with ⟨it, hit, hitid⟩
      rw [← hitid]
      exact hne it hit)
  have hrun1 : removeRunB (hm.heightMap.take i0
      ++ (insertScan items i0 b 0 hm.indexes).1
      ++ (shiftReindex (hm.heightMap.drop i0) (i0 + items.length)
        (insertScan items i0 b 0 hm.indexes).2.1
        (insertScan items i0 b 0 hm.indexes).2.2.1).1)
      (it0.id :: irest.map Item.id)
      (shiftReindex (hm.heightMap.drop i0) (i0 + items.length)
        (insertScan items i0 b 0 hm.indexes).2.1
        (insertScan items i0 b 0 hm.indexes).2.2.1).2 i0 = true := by
    rw [hsegids, hmapcons] at hrun0
    exact hrun0
  have hchar := removeScan_top _ _ it0.id (irest.map Item.id) i0 hrun1
  have hz : ¬ -heightSum (((hm.heightMap.take i0
      ++ (insertScan items i0 b 0 hm.indexes).1
      ++ (shiftReindex (hm.heightMap.drop i0) (i0 + items.length)
        (insertScan items i0 b 0 hm.indexes).2.1
        (insertScan items i0 b 0 hm.indexes).2.2.1).1).drop i0).take
          (irest.length + 1)) = 0 := by
    rw [hsegN, insertScan_heightSum]
    simpa using hsz
  have hcnt : (Int.ofNat (i0 + irest.length) - Int.ofNat i0 + 1).toNat
      = items.length := by
    simp only [Int.ofNat_eq_natCast]
    omega
  have hdelAov : delAll Aov (it0.id :: irest.map Item.id) = Aov := by
    apply delAll_of_disjoint
    intro p hp hin
    have hpk : p.1 ∈ hm.indexes.map Prod.fst := by
      rw [← hAovkeys]
      exact List.mem_map_of_mem Prod.fst hp
    have hin2 : p.1 ∈ items.map Item.id := by
      rw [hmapcons]
      exact hin
    rcases List.mem_map.mp hin2 with ⟨it, hit, hitid⟩
    exact hfreshkeys it hit (hitid ▸ hpk)
  have hdelE : delAll E (it0.id :: irest.map Item.id) = [] := by
    apply delAll_nil_of_subset
    intro p hp
    rw [← hmapcons]
    exact hEkeys p hp
  have hidsS1 : idsOf (shiftReindex (hm.heightMap.drop i0) (i0 + items.length)
      (insertScan items i0 b 0 hm.indexes).2.1
      (insertScan items i0 b 0 hm.indexes).2.2.1).1
      = idsOf (hm.heightMap.drop i0) := by
    rw [shiftReindex_rows]
    exact idsOf_map_shift _ _
  have hpresS : ∀ v ∈ (shiftReindex (hm.heightMap.drop i0) (i0 + items.length)
      (insertScan items i0 b 0 hm.indexes).2.1
      (insertScan items i0 b 0 hm.indexes).2.2.1).1,
      (List.lookup v.model.id Aov).isSome = true := by
    intro v hv
    rw [lookup_isSome_iff_mem_keys, hAovkeys]
    have h1 : v.model.id ∈ idsOf (shiftReindex (hm.heightMap.drop i0)
        (i0 + items.length) (insertScan items i0 b 0 hm.indexes).2.1
        (insertScan items i0 b 0 hm.indexes).2.2.1).1 :=
      List.mem_map_of_mem _ hv
    rw [hidsS1] at h1
    rcases List.mem_map.mp h1 with ⟨w, hw, hwid⟩
    rw [← hwid]
    exact hpresA w hw
  have hrowsF : hm.heightMap.take i0
      ++ (shiftReindex (shiftReindex (hm.heightMap.drop i0) (i0 + items.length)
          (insertScan items i0 b 0 hm.indexes).2.1
          (insertScan items i0 b 0 hm.indexes).2.2.1).1
        i0 (-itemHeightSum items) Aov).1
      = hm.heightMap := by
    simp only [shiftReindex_rows]
    rw [map_shift_cancel _ _ _ (by rw [insertScan_sizeDiff]; ring)]
    exact List.take_append_drop i0 hm.heightMap
  have hidxF : (shiftReindex (shiftReindex (hm.heightMap.drop i0)
        (i0 + items.length) (insertScan items i0 b 0 hm.indexes).2.1
        (insertScan items i0 b 0 hm.indexes).2.2.1).1
      i0 (-itemHeightSum items) Aov).2
      = hm.indexes := by
    have hkeysF : ((shiftReindex (shiftReindex (hm.heightMap.drop i0)
          (i0 + items.length) (insertScan items i0 b 0 hm.indexes).2.1
          (insertScan items i0 b 0 hm.indexes).2.2.1).1
        i0 (-itemHeightSum items) Aov).2).map Prod.fst
        = hm.indexes.map Prod.fst := by
      rw [keys_shiftReindex _ _ _ _ hpresS, hAovkeys]
    apply assoc_ext _ _ hkeysF (by rw [hkeysF]; exact hkeys)
    intro k
    by_cases hkmem : k ∈ idsOf (hm.heightMap.drop i0)
    · rcases List.mem_map.mp hkmem with ⟨w, hw, hwid⟩
      rcases List.mem_iff_getElem?.mp hw with ⟨m, hm0⟩
      have hg1 : (shiftReindex (hm.heightMap.drop i0) (i0 + items.length)
          (insertScan items i0 b 0 hm.indexes).2.1
          (insertScan items i0 b 0 hm.indexes).2.2.1).1.get? m
          = some { w with
              top := w.top + (insertScan items i0 b 0 hm.indexes).2.1 } := by
        rw [shiftReindex_rows, List.get?_eq_getElem?, List.getElem?_map, hm0]
        rfl
      have h1 := shiftReindex_lookup_mem
        (shiftReindex (hm.heightMap.drop i0) (i0 + items.length)
          (insertScan items i0 b 0 hm.indexes).2.1
          (insertScan items i0 b 0 hm.indexes).2.2.1).1
        i0 (-itemHeightSum items) Aov m
        { w with top := w.top + (insertScan items i0 b 0 hm.indexes).2.1 }
        (by rw [hidsS1]; exact hndsuf) hg1
      have h2 : List.lookup k (shiftReindex (shiftReindex (hm.heightMap.drop i0)
            (i0 + items.length) (insertScan items i0 b 0 hm.indexes).2.1
            (insertScan items i0 b 0 hm.indexes).2.2.1).1
          i0 (-itemHeightSum items) Aov).2 = some (i0 + m) := by
        rw [← hwid]
        exact h1
      rw [h2]
      have h3 : hm.heightMap.get? (i0 + m) = some w := by
        rw [List.get?_eq_getElem?, ← List.getElem?_drop]
        exact hm0
      have h4 := (slotsOK_iff _ _).mp hslots (i0 + m) w h3
      rw [hwid] at h4
      rw [h4]
    · have h1 := shiftReindex_lookup_not_mem
        (shiftReindex (hm.heightMap.drop i0) (i0 + items.length)
          (insertScan items i0 b 0 hm.indexes).2.1
          (insertScan items i0 b 0 hm.indexes).2.2.1).1
        i0 (-itemHeightSum items) Aov k (by rw [hidsS1]; exact hkmem)
      rw [h1]
      by_cases hkk : k ∈ hm.indexes.map Prod.fst
      · have hsomeA : (List.lookup k Aov).isSome = true := by
          rw [lookup_isSome_iff_mem_keys, hAovkeys]
          exact hkk
        have e1 : List.lookup k (Aov ++ E) = List.lookup k Aov :=
          lookup_append_left Aov E k hsomeA
        have e2 : List.lookup k (Aov ++ E) = List.lookup k hm.indexes := by
          rw [← hidx1]
          rw [shiftReindex_lookup_not_mem _ _ _ _ _ hkmem]
          rw [hEeq]
          exact lookup_append_left hm.indexes E k
            ((lookup_isSome_iff_mem_keys _ _).mpr hkk)
        rw [← e1, e2]
      · rw [lookup_none_of_not_mem_keys Aov k (by rw [hAovkeys]; exact hkk),
          lookup_none_of_not_mem_keys hm.indexes k hkk]
  rw [hmapcons]
  unfold HeightMap.onRemoveItems
  simp only [hchar, List.length_cons, List.length_map]
  rw [if_neg (by simp : ¬ (true = false))]
  rw [if_neg hz]
  simp only [hcnt]
  rw [htake1, hdropL]
  rw [List.take_left' hlP, List.drop_left' hlP]
  rw [hsegN, insertScan_heightSum]
  rw [hidx1, delAll_append, hdelAov, hdelE, List.append_nil]
  rw [hrowsF, hidxF]

theorem c4_insert_remove_roundtrip_witness :
    (I2B hmA = true ∧ nodupIdsB hmA = true ∧ (hmA.indexes.map Prod.fst).Nodup
      ∧ freshItemsB hmA [⟨"x", 7⟩] = true
      ∧ (∀ it ∈ ([⟨"x", 7⟩] : List Item), ¬ it.id = "")
      ∧ insertStart hmA (some "a") = some (1, 10)
      ∧ ¬ itemHeightSum [⟨"x", 7⟩] = 0) ∧
    ∃ hm1 sd tr, hmA.onInsertItems [⟨"x", 7⟩] (some "a") = some (hm1, sd, tr) ∧
      (hm1.onRemoveItems (([⟨"x", 7⟩] : List Item).map Item.id)).1 = hmA :=
  ⟨⟨by decide, by decide, by decide, by decide, by decide, by decide, by decide⟩,
    c4_insert_remove_roundtrip hmA [⟨"x", 7⟩] (some "a") 1 10 (by decide)
      (by decide) (by decide) (by decide) (by decide) (by decide) (by decide)⟩
